import Mathlib

/-!
# Verification of the F3 geographic-directory core (`src/main.ts`)

A shallow embedding of the data model and the core algorithms of the map
application: the hierarchy index (`buildChildrenMap` / `getDescendantOrgIds`),
the point aggregator (`getOrgPoints`), the geometry kernel (`cross`,
`convexHull`, `createCircleBuffer`, `createStarPolygon`), the boundary
resolver (the per-organization branch of `renderLevel`), and the navigation
state machine (`updateUrlState` / `restoreStateFromUrl` and the polygon click
handler).

JavaScript `number` ids are modelled as `Int`; geographic coordinates are
modelled as exact rationals (`ℚ`) for the hull (only field operations and
comparisons are used there) and as reals (`ℝ`) where `Math.cos`/`Math.sin`
appear.  JavaScript `NaN` (which `parseInt` can produce) is modelled by a
dedicated constructor of `JsNum`.  `Map` objects are modelled by
insertion-ordered association lists with last-write-wins upsert.  The
unguarded recursions of the source (`getDescendantOrgIds` and the parent walk
of `restoreStateFromUrl`) are modelled with an explicit fuel parameter,
`none` marking divergence.
-/

namespace F3Map

/-- The `OrgType` union of `main.ts`. -/
inductive OrgType where
  | nation
  | sector
  | area
  | region
  | ao
deriving DecidableEq, Repr

/-- The fields of `Org` that the core logic reads. -/
structure Org where
  id : Int
  parentId : Option Int
  name : String
  orgType : OrgType
deriving DecidableEq, Repr

/-- The fields of `Location` that the core logic reads. -/
structure Location where
  id : Int
  latitude : Option ℚ
  longitude : Option ℚ
deriving DecidableEq, Repr

/-- The fields of `Event` that the core logic reads.  `parents`/`regions`
hold the organization ids contributed by the `parents`/`regions` association
arrays (the `parentId` / `regionId` projections taken in `init`). -/
structure Event where
  id : Int
  locationId : Option Int
  parents : List Int
  regions : List Int
deriving DecidableEq, Repr

/-- The entity collections loaded once at startup. -/
structure Env where
  orgs : List Org
  locations : List Location
  events : List Event
deriving Repr

/-! ## JS `Map` semantics

`orgById` / `locationById` are built by iterating the entity list and calling
`Map.set(id, entity)`: a later entity with the same id overwrites the earlier
value but keeps the earlier insertion position.  `upsertBy` models one `set`.
-/

/-- One `Map.set` step keyed by `key`: replace in place if present, else
append. -/
def upsertBy {α : Type} (key : α → Int) (l : List α) (x : α) : List α :=
  if l.any (fun y => key y == key x) then
    l.map (fun y => if key y == key x then x else y)
  else
    l ++ [x]

/-- The insertion-ordered value list of a `Map` built from `l` by keyed
`set` calls. -/
def mapValuesBy {α : Type} (key : α → Int) (l : List α) : List α :=
  l.foldl (upsertBy key) []

/-- `orgById` as a value list (`[...orgById.values()]`). -/
def orgValues (env : Env) : List Org :=
  mapValuesBy (fun o => o.id) env.orgs

/-- `orgById.get orgId`. -/
def orgById (env : Env) (orgId : Int) : Option Org :=
  (orgValues env).find? (fun o => o.id == orgId)

/-- `locationById.get locId`. -/
def locationById (env : Env) (locId : Int) : Option Location :=
  (mapValuesBy (fun l => l.id) env.locations).find? (fun l => l.id == locId)

/-- `buildChildrenMap` followed by `childrenByParent.get parentId ?? []`:
organizations whose `parentId` is (non-null and) equal to `parentId`, in
entity order. -/
def childrenByParent (env : Env) (parentId : Int) : List Org :=
  env.orgs.filter (fun o => o.parentId == some parentId)

/-- The org ids an event counts toward: its `parents` entries then its
`regions` entries, in order (the order `init` pushes them). -/
def eventOrgIds (e : Event) : List Int :=
  e.parents ++ e.regions

/-- `eventsByOrgId.get orgId ?? []`: each event appears once per occurrence
of `orgId` in its association lists, in event order (matching the
`init` build loop). -/
def eventsByOrgId (env : Env) (orgId : Int) : List Event :=
  env.events.flatMap (fun e =>
    ((eventOrgIds e).filter (fun i => i == orgId)).map (fun _ => e))

/-! ## Hierarchy index: `getDescendantOrgIds`

The source recursion has no cycle guard; the embedding uses fuel, with
`none` marking fuel exhaustion (the behaviour the source would exhibit as
divergence / stack overflow).
-/

/-- Sequential recursion over a children list, propagating fuel
exhaustion. -/
def descendantsOfChildren (rec : Int → Option (List Int)) :
    List Org → Option (List Int)
  | [] => some []
  | c :: cs =>
    match rec c.id with
    | none => none
    | some d =>
      match descendantsOfChildren rec cs with
      | none => none
      | some rest => some (d ++ rest)

/-- `getDescendantOrgIds` (ignoring the memo cache): `orgId` followed by the
concatenated descendant lists of its children. -/
def getDescendantOrgIds (env : Env) : Nat → Int → Option (List Int)
  | 0, _ => none
  | fuel + 1, orgId =>
    match orgById env orgId with
    | none => some []
    | some _ =>
      (descendantsOfChildren (getDescendantOrgIds env fuel)
          (childrenByParent env orgId)).map
        (fun ds => orgId :: ds)

/-- The memo cache `orgDescendantsCache`, as an insertion-ordered
association list. -/
abbrev DescCache := List (Int × List Int)

/-- `orgDescendantsCache.get k` (with `has` semantics: `some` iff the key
was set). -/
def cacheGet (cache : DescCache) (k : Int) : Option (List Int) :=
  (cache.reverse.find? (fun e => e.1 == k)).map (fun e => e.2)

/-- Children recursion of the memoized variant, threading the cache. -/
def memoChildren (rec : Int → DescCache → Option (List Int × DescCache)) :
    List Org → DescCache → Option (List Int × DescCache)
  | [], cache => some ([], cache)
  | c :: cs, cache =>
    match rec c.id cache with
    | none => none
    | some (d, cache₂) =>
      match memoChildren rec cs cache₂ with
      | none => none
      | some (rest, cache₃) => some (d ++ rest, cache₃)

/-- `getDescendantOrgIds` with its memo cache (`orgDescendantsCache`):
a cache hit returns the stored list; otherwise the result is computed as in
the pure variant and stored before returning. -/
def getDescendantOrgIdsMemo (env : Env) :
    Nat → Int → DescCache → Option (List Int × DescCache)
  | 0, _, _ => none
  | fuel + 1, orgId, cache =>
    match cacheGet cache orgId with
    | some v => some (v, cache)
    | none =>
      match orgById env orgId with
      | none => some ([], cache ++ [(orgId, [])])
      | some _ =>
        match memoChildren (getDescendantOrgIdsMemo env fuel)
            (childrenByParent env orgId) cache with
        | none => none
        | some (ds, cache₂) =>
          some (orgId :: ds, cache₂ ++ [(orgId, orgId :: ds)])

/-! ## The child-edge graph, paths and acyclicity -/

/-- `p` is the parent id of an organization record with id `c`.  These are
exactly the edges the descendant recursion follows. -/
def ChildEdge (env : Env) (p c : Int) : Prop :=
  ∃ o, o ∈ env.orgs ∧ o.parentId = some p ∧ o.id = c

/-- A descending stack of ids: the head is the deepest node and each element
is a child of the next one (`ChildStack [c, p, …]` requires `ChildEdge p c`,
etc.). -/
inductive ChildStack (env : Env) : List Int → Prop where
  | nil : ChildStack env []
  | single (a : Int) : ChildStack env [a]
  | cons (c p : Int) (rest : List Int) :
      ChildEdge env p c → ChildStack env (p :: rest) →
      ChildStack env (c :: p :: rest)

/-- The parent graph restricted to non-null parents has no cycles: every
child-edge path visits pairwise-distinct nodes.  This is the spec's
"forest" invariant. -/
def Acyclic (env : Env) : Prop :=
  ∀ l, ChildStack env l → l.Nodup

/-- Transitive-reflexive reachability along child edges (the set of
descendants of an id, itself included). -/
inductive Reaches (env : Env) : Int → Int → Prop where
  | refl (a : Int) : Reaches env a a
  | step (a b c : Int) : Reaches env a b → ChildEdge env b c → Reaches env a c

/-- The canonical fuel: one more than the number of organization records,
which bounds the length of any duplicate-free child path. -/
def stdFuel (env : Env) : Nat :=
  env.orgs.length + 1

/-! ## Point aggregator: `getOrgPoints` -/

/-- A geographic point, generic in the coordinate field (`Point` of
`main.ts`). -/
structure Point (α : Type) where
  lat : α
  lng : α
deriving DecidableEq, Repr

/-- One iteration of the inner event loop of `getOrgPoints`, acting on the
pair (`seenLocationIds` as an insertion-ordered list, `points`).  The
`!event.locationId` test is JS truthiness: both a missing and a zero
location id are skipped.  Locations missing from the map or lacking either
coordinate are skipped without marking the id as seen. -/
def orgPointsStep (env : Env) (acc : List Int × List (Point ℚ)) (e : Event) :
    List Int × List (Point ℚ) :=
  match e.locationId with
  | none => acc
  | some lid =>
    if lid = 0 ∨ lid ∈ acc.1 then acc
    else
      match locationById env lid with
      | none => acc
      | some loc =>
        match loc.latitude, loc.longitude with
        | some la, some lo => (acc.1 ++ [lid], acc.2 ++ [⟨la, lo⟩])
        | some _, none => acc
        | none, _ => acc

/-- The double loop of `getOrgPoints` over descendant ids and their events,
returning the final (`seenLocationIds`, `points`) pair.  The first component
tags each produced point with its originating location id, in order. -/
def getOrgPointsAux (env : Env) (orgIds : List Int) :
    List Int × List (Point ℚ) :=
  orgIds.foldl
    (fun acc did => (eventsByOrgId env did).foldl (orgPointsStep env) acc)
    ([], [])

/-- `getOrgPoints`, with the fuel of the descendant computation made
explicit (`none` = the descendant recursion would diverge). -/
def getOrgPoints (env : Env) (fuel : Nat) (org : Org) :
    Option (List (Point ℚ)) :=
  (getDescendantOrgIds env fuel org.id).map
    (fun orgIds => (getOrgPointsAux env orgIds).2)

/-! ## JS numbers, `parseInt`, and decimal serialization -/

/-- A JavaScript number as the navigation state uses it: either an integer
or `NaN` (produced by `parseInt` on non-numeric input). -/
inductive JsNum where
  | nan : JsNum
  | num : Int → JsNum
deriving DecidableEq, Repr

/-- Decimal digit value of a character, if any. -/
def digitVal (c : Char) : Option Nat :=
  if '0' ≤ c ∧ c ≤ '9' then some (c.toNat - 48) else none

/-- Maximal leading run of decimal digits. -/
def takeDigits : List Char → List Nat
  | [] => []
  | c :: cs =>
    match digitVal c with
    | some d => d :: takeDigits cs
    | none => []

/-- `parseInt(s, 10)`: skip leading whitespace, optional sign, then the
maximal digit prefix; `NaN` when no digits follow. -/
def parseInt (s : String) : JsNum :=
  let cs := s.data.dropWhile (fun c => c.isWhitespace)
  let sgn : Int := match cs with
    | c :: _ => if c = '-' then -1 else 1
    | [] => 1
  let cs' := match cs with
    | c :: rest => if c = '-' ∨ c = '+' then rest else c :: rest
    | [] => []
  let ds := takeDigits cs'
  if ds = [] then JsNum.nan
  else JsNum.num (sgn * (ds.foldl (fun a d => a * 10 + d) 0 : Nat))

/-- Little-endian decimal digits of a positive natural number. -/
def natDigitsRev : Nat → List Char
  | 0 => []
  | n + 1 =>
    Char.ofNat (48 + (n + 1) % 10) :: natDigitsRev ((n + 1) / 10)
decreasing_by exact Nat.div_lt_self (Nat.succ_pos n) (by omega)

/-- Decimal string of a natural number (`String(n)` for `n ≥ 0`). -/
def natToString (n : Nat) : String :=
  if n = 0 then "0" else ⟨(natDigitsRev n).reverse⟩

/-- `String(i)` for an integer. -/
def intToString (i : Int) : String :=
  if i < 0 then "-" ++ natToString i.natAbs else natToString i.toNat

/-- `String(x)` for a `JsNum`. -/
def jsNumToString : JsNum → String
  | JsNum.nan => "NaN"
  | JsNum.num i => intToString i

/-- `x >= m` on a possibly-NaN number (NaN comparisons are false). -/
def jsGe (x : JsNum) (m : Int) : Bool :=
  match x with
  | JsNum.nan => false
  | JsNum.num n => m ≤ n

/-- `x + k` on a possibly-NaN number. -/
def jsAdd (x : JsNum) (k : Int) : JsNum :=
  match x with
  | JsNum.nan => JsNum.nan
  | JsNum.num n => JsNum.num (n + k)

/-! ## Navigation state machine -/

/-- The mutable navigation state of `main.ts`. -/
structure NavState where
  currentLevelIndex : JsNum
  selectedPath : List Org
deriving DecidableEq, Repr

/-- `levelOrder`. -/
def levelOrder : List OrgType :=
  [OrgType.sector, OrgType.area, OrgType.region, OrgType.ao]

/-- `Array.prototype.indexOf` (`-1` when absent). -/
def jsIndexOf : List OrgType → OrgType → Int
  | [], _ => -1
  | x :: xs, t =>
    if x = t then 0
    else
      let r := jsIndexOf xs t
      if r = -1 then -1 else r + 1

/-- `levelOrder[idx]` (out-of-range and NaN indices give `undefined`). -/
def levelAt (idx : JsNum) : Option OrgType :=
  match idx with
  | JsNum.nan => none
  | JsNum.num n => if n < 0 then none else levelOrder[n.toNat]?

/-- The persisted UI state: the recognized query-string parameters. -/
structure UrlParams where
  org : Option String
  level : Option String
deriving DecidableEq, Repr

/-- JS `String.prototype.trim`: strip leading and trailing whitespace
(modelled over the character list so that it evaluates in the kernel). -/
def strTrim (s : String) : String :=
  ⟨((s.data.dropWhile Char.isWhitespace).reverse.dropWhile
      Char.isWhitespace).reverse⟩

/-- JS `String.prototype.toLowerCase` (ASCII case folding). -/
def strToLower (s : String) : String :=
  ⟨s.data.map Char.toLower⟩

/-- `isSectorInternational`. -/
def isSectorInternational (org : Org) : Bool :=
  org.orgType == OrgType.sector &&
    strToLower (strTrim org.name) == "international"

/-- `isGeneralInternationalArea`. -/
def isGeneralInternationalArea (org : Org) : Bool :=
  org.orgType == OrgType.area &&
    strToLower (strTrim org.name) == "general international area"

/-- `updateUrlState`: a non-empty selected path serializes the id of its
last element; otherwise the raw level index is serialized. -/
def updateUrlState (s : NavState) : UrlParams :=
  match s.selectedPath.getLast? with
  | some lastOrg => { org := some (intToString lastOrg.id), level := none }
  | none => { org := none, level := some (jsNumToString s.currentLevelIndex) }

/-- `Map.get` keyed by a possibly-NaN number (NaN never matches). -/
def orgByJsNum (env : Env) (x : JsNum) : Option Org :=
  match x with
  | JsNum.nan => none
  | JsNum.num i => orgById env i

/-- The `while (current)` parent walk of `restoreStateFromUrl`, with fuel.
A zero parent id is falsy in JS and ends the walk, as does a missing
parent.  The result is in root-to-org order (`unshift`). -/
def ancestorWalk (env : Env) : Nat → Org → Option (List Org)
  | 0, _ => none
  | fuel + 1, org =>
    match org.parentId with
    | none => some [org]
    | some p =>
      if p = 0 then some [org]
      else
        match orgById env p with
        | none => some [org]
        | some parent =>
          (ancestorWalk env fuel parent).map (fun chain => chain ++ [org])

/-- The `else if (levelParam)` branch: a truthy level parameter overwrites
the level index with its parse (possibly NaN) and empties the path. -/
def restoreLevelBranch (params : UrlParams) (s : NavState) : NavState :=
  match params.level with
  | none => s
  | some lvlStr =>
    if lvlStr = "" then s
    else { currentLevelIndex := parseInt lvlStr, selectedPath := [] }

/-- `restoreStateFromUrl`, acting on the state current at call time (the
startup defaults).  A truthy `org` parameter shadows `level`; an
unresolvable org id leaves the state untouched; a resolved org installs the
filtered ancestor chain and, when the org's type is in `levelOrder`, the
level one past that type's position. -/
def restoreStateFromUrl (env : Env) (fuel : Nat) (params : UrlParams)
    (s : NavState) : Option NavState :=
  match params.org with
  | some orgStr =>
    if orgStr = "" then some (restoreLevelBranch params s)
    else
      match orgByJsNum env (parseInt orgStr) with
      | none => some s
      | some org =>
        (ancestorWalk env fuel org).map (fun path =>
          let newPath := path.filter (fun o => o.orgType ≠ OrgType.nation)
          let levelIndex := jsIndexOf levelOrder org.orgType
          { currentLevelIndex :=
              if levelIndex ≠ -1 then JsNum.num (levelIndex + 1)
              else s.currentLevelIndex,
            selectedPath := newPath })
  | none => some (restoreLevelBranch params s)

/-- The polygon click handler of `renderLevel`: regions are view-only, the
deepest level does not navigate, an empty path synthesizes `[parent, org]`
when a non-nation parent resolves (a zero parent id being falsy), and the
international overrides jump straight to the region level. -/
def clickOrg (env : Env) (s : NavState) (org : Org) : NavState :=
  if org.orgType = OrgType.region then s
  else if jsGe s.currentLevelIndex (levelOrder.length - 1) then s
  else
    let newPath :=
      if s.selectedPath = [] then
        match org.parentId with
        | some p =>
          if p = 0 then [org]
          else
            match orgById env p with
            | some parent =>
              if parent.orgType ≠ OrgType.nation then [parent, org]
              else [org]
            | none => [org]
        | none => [org]
      else s.selectedPath ++ [org]
    if isSectorInternational org || isGeneralInternationalArea org then
      { currentLevelIndex := JsNum.num 2, selectedPath := newPath }
    else
      { currentLevelIndex := jsAdd s.currentLevelIndex 1,
        selectedPath := newPath }

/-- `getCurrentLevelOrgs`, with fuel for the international-descendants
override. -/
def getCurrentLevelOrgs (env : Env) (fuel : Nat) (s : NavState) :
    Option (List Org) :=
  match levelAt s.currentLevelIndex with
  | some OrgType.sector =>
    some ((orgValues env).filter (fun o => o.orgType == OrgType.sector))
  | level =>
    match s.selectedPath.getLast? with
    | none =>
      some ((orgValues env).filter (fun o => some o.orgType == level))
    | some parent =>
      if isSectorInternational parent ∧ level = some OrgType.region then
        (getDescendantOrgIds env fuel parent.id).map (fun ds =>
          (orgValues env).filter (fun o =>
            o.orgType == OrgType.region && ds.contains o.id))
      else
        some ((orgValues env).filter (fun o =>
          some o.orgType == level && o.parentId == some parent.id))

/-! ## Geometry kernel -/

/-- The 2-D cross product `cross(o, a, b)` of `main.ts` (positive for a
counterclockwise turn in the (lng, lat) plane). -/
def cross (o a b : Point ℚ) : ℚ :=
  (a.lng - o.lng) * (b.lat - o.lat) - (a.lat - o.lat) * (b.lng - o.lng)

/-- The sort comparator of `convexHull` as a (total, transitive) boolean
order: ascending longitude, ties by ascending latitude. -/
def lexLe (p q : Point ℚ) : Bool :=
  p.lng < q.lng ∨ (p.lng = q.lng ∧ p.lat ≤ q.lat)

/-- The pop loop of a chain build, on a reversed stack (head = top):
pop while the top pair together with the incoming point fails to make a
strict counterclockwise turn. -/
def popWhile (p : Point ℚ) : List (Point ℚ) → List (Point ℚ)
  | b :: a :: rest =>
    if cross a b p ≤ 0 then popWhile p (a :: rest) else b :: a :: rest
  | l => l

/-- One chain of the monotone-chain algorithm: fold the points through
pop-then-push.  The stack is kept reversed internally and reversed back at
the end. -/
def buildChain (pts : List (Point ℚ)) : List (Point ℚ) :=
  (pts.foldl (fun chain p => p :: popWhile p chain) []).reverse

/-- `convexHull`: inputs of at most one point pass through; otherwise sort,
build the lower chain and (over the reversed order) the upper chain, drop
each chain's last point and concatenate. -/
def convexHull (points : List (Point ℚ)) : List (Point ℚ) :=
  if points.length ≤ 1 then points
  else
    let sorted := points.mergeSort lexLe
    let lower := buildChain sorted
    let upper := buildChain sorted.reverse
    lower.dropLast ++ upper.dropLast

/-- `createCircleBuffer`: `segments` points on a circle of radius
`radiusDegrees` around `center`, at angles `2π·i/segments` starting from
angle 0. -/
noncomputable def createCircleBuffer (center : Point ℝ) (radiusDegrees : ℝ)
    (segments : Nat) : List (Point ℝ) :=
  (List.range segments).map (fun (i : Nat) =>
    ⟨center.lat + radiusDegrees *
        Real.cos (((i : ℝ) / (segments : ℝ)) * (2 * Real.pi)),
     center.lng + radiusDegrees *
        Real.sin (((i : ℝ) / (segments : ℝ)) * (2 * Real.pi))⟩)

/-- `createStarPolygon`: `pts * 2` vertices alternating outer radius and
`0.4 ×` outer radius at equal angular steps starting at the top. -/
noncomputable def createStarPolygon (center : Point ℝ) (radiusDegrees : ℝ)
    (pts : Nat) : List (Point ℝ) :=
  (List.range (pts * 2)).map (fun (i : Nat) =>
    ⟨center.lat + (if i % 2 = 0 then radiusDegrees else radiusDegrees * 0.4) *
        Real.cos ((i : ℝ) * Real.pi / (pts : ℝ) - Real.pi / 2),
     center.lng + (if i % 2 = 0 then radiusDegrees else radiusDegrees * 0.4) *
        Real.sin ((i : ℝ) * Real.pi / (pts : ℝ) - Real.pi / 2)⟩)

/-! ## Boundary resolver (the per-organization branch of `renderLevel`) -/

/-- The shape drawn for an organization: the decorative star, the
circle-buffer fallback, or a data-derived hull. -/
inductive Shape where
  | star (pts : List (Point ℝ))
  | circle (pts : List (Point ℝ))
  | hull (pts : List (Point ℚ))

/-- The center used by the circle-buffer fallback of `renderLevel`:
the single point, or the coordinate-wise average of the two points. -/
noncomputable def fallbackCenter (p : Point ℚ) (rest : List (Point ℚ)) :
    Point ℝ :=
  match rest with
  | q :: _ => ⟨((p.lat : ℝ) + (q.lat : ℝ)) / 2, ((p.lng : ℝ) + (q.lng : ℝ)) / 2⟩
  | [] => ⟨(p.lat : ℝ), (p.lng : ℝ)⟩

/-- The fixed Atlantic anchor of the decorative star. -/
def atlanticCenter : Point ℝ := ⟨20, -40⟩

/-- The shape decision of `renderLevel` for one organization.  The outer
`Option` is fuel exhaustion of the point aggregator (never consulted for
the international overrides); the inner `Option` is "no shape drawn". -/
noncomputable def resolveBoundary (env : Env) (fuel : Nat) (org : Org) :
    Option (Option Shape) :=
  if isSectorInternational org || isGeneralInternationalArea org then
    some (some (Shape.star (createStarPolygon atlanticCenter 8 5)))
  else
    (getOrgPoints env fuel org).map (fun points =>
      match points with
      | [] => none
      | p :: rest =>
        if points.length < 3 then
          some (Shape.circle
            (createCircleBuffer (fallbackCenter p rest) 0.15 8))
        else
          let hull := convexHull points
          if hull.length < 3 then none else some (Shape.hull hull))

/-! ## Basic lemmas about the entity lookups -/

/-- Ids of the organization records. -/
def idList (env : Env) : List Int :=
  env.orgs.map (fun o => o.id)

/-- The organization ids are pairwise distinct (the spec's "id (unique,
stable)" well-formedness condition). -/
def NodupIds (env : Env) : Prop :=
  (idList env).Nodup

theorem mem_foldl_upsertBy {α : Type} (key : α → Int) :
    ∀ (l : List α) (acc : List α) (x : α),
      x ∈ l.foldl (upsertBy key) acc → x ∈ acc ∨ x ∈ l := by
  intro l
  induction l with
  | nil => intro acc x hx; exact Or.inl hx
  | cons a as ih =>
    intro acc x hx
    rcases ih (upsertBy key acc a) x hx with h | h
    · unfold upsertBy at h
      split at h
      · rcases List.mem_map.mp h with ⟨y, hy, hyx⟩
        by_cases hk : key y == key a
        · simp only [hk, if_pos] at hyx
          exact Or.inr (by simp [← hyx])
        · simp only [hk] at hyx
          exact Or.inl (hyx ▸ hy)
      · rcases List.mem_append.mp h with h | h
        · exact Or.inl h
        · exact Or.inr (by simp [List.mem_singleton.mp h])
    · exact Or.inr (List.mem_cons_of_mem a h)

theorem mem_orgValues {env : Env} {o : Org} (h : o ∈ orgValues env) :
    o ∈ env.orgs := by
  unfold orgValues mapValuesBy at h
  rcases mem_foldl_upsertBy (fun o => o.id) env.orgs [] o h with h | h
  · cases h
  · exact h

theorem orgById_mem {env : Env} {i : Int} {o : Org}
    (h : orgById env i = some o) : o ∈ env.orgs ∧ o.id = i := by
  refine ⟨mem_orgValues (List.mem_of_find?_eq_some h), ?_⟩
  have := List.find?_some h
  simpa using this

theorem keys_foldl_upsertBy {α : Type} (key : α → Int) :
    ∀ (l : List α) (acc : List α) (x : α), x ∈ l →
      ∃ y ∈ l.foldl (upsertBy key) acc, key y = key x := by
  intro l
  induction l with
  | nil => intro acc x hx; cases hx
  | cons a as ih =>
    intro acc x hx
    rcases List.mem_cons.mp hx with rfl | hx
    · -- after the first step the key of `x` is present and upserts keep keys
      have base : ∃ y ∈ upsertBy key acc x, key y = key x := by
        unfold upsertBy
        split
        · next hany =>
          rcases List.any_eq_true.mp hany with ⟨y, hy, hky⟩
          exact ⟨x, by
            refine List.mem_map.mpr ⟨y, hy, ?_⟩
            simp [hky], rfl⟩
        · exact ⟨x, by simp, rfl⟩
      -- keys present in the accumulator stay present through the fold
      have stable : ∀ (as' : List α) (acc' : List α) (k : Int),
          (∃ y ∈ acc', key y = k) →
          ∃ y ∈ as'.foldl (upsertBy key) acc', key y = k := by
        intro as'
        induction as' with
        | nil => intro acc' k hk; exact hk
        | cons b bs ihb =>
          intro acc' k hk
          refine ihb (upsertBy key acc' b) k ?_
          rcases hk with ⟨y, hy, hky⟩
          unfold upsertBy
          split
          · by_cases hkb : key y == key b
            · refine ⟨b, ?_, ?_⟩
              · exact List.mem_map.mpr ⟨y, hy, by simp [hkb]⟩
              · have : key y = key b := by simpa using hkb
                omega
            · exact ⟨y, List.mem_map.mpr ⟨y, hy, by simp [hkb]⟩, hky⟩
          · exact ⟨y, List.mem_append_left _ hy, hky⟩
      exact stable as (upsertBy key acc x) (key x) base
    · exact ih (upsertBy key acc a) x hx

/-- Every organization record is represented in the id map: lookup by its id
succeeds. -/
theorem orgById_isSome_of_mem {env : Env} {o : Org} (h : o ∈ env.orgs) :
    (orgById env o.id).isSome := by
  rcases keys_foldl_upsertBy (fun o => o.id) env.orgs [] o h with ⟨y, hy, hky⟩
  unfold orgById
  refine List.find?_isSome.mpr ⟨y, ?_, ?_⟩
  · unfold orgValues mapValuesBy
    exact hy
  · simpa using hky

theorem mem_childrenByParent {env : Env} {p : Int} {c : Org} :
    c ∈ childrenByParent env p ↔ c ∈ env.orgs ∧ c.parentId = some p := by
  unfold childrenByParent
  rw [List.mem_filter]
  constructor
  · rintro ⟨h₁, h₂⟩; exact ⟨h₁, by simpa using h₂⟩
  · rintro ⟨h₁, h₂⟩; exact ⟨h₁, by simpa using h₂⟩

theorem childEdge_of_child {env : Env} {p : Int} {c : Org}
    (h : c ∈ childrenByParent env p) : ChildEdge env p c.id := by
  rcases mem_childrenByParent.mp h with ⟨h₁, h₂⟩
  exact ⟨c, h₁, h₂, rfl⟩

theorem childEdge_target_mem {env : Env} {p c : Int}
    (h : ChildEdge env p c) : c ∈ idList env := by
  rcases h with ⟨o, ho, _, rfl⟩
  exact List.mem_map.mpr ⟨o, ho, rfl⟩

/-- A duplicate-free list of ids drawn from the entity ids is no longer than
the deduplicated id list. -/
theorem nodup_length_le {env : Env} {l : List Int} (hn : l.Nodup)
    (hsub : ∀ x ∈ l, x ∈ idList env) :
    l.length ≤ (idList env).dedup.length := by
  have h₁ : l.toFinset.card = l.length := by
    rw [List.card_toFinset, hn.dedup]
  have h₂ : l.toFinset ⊆ (idList env).toFinset := by
    intro x hx
    exact List.mem_toFinset.mpr (hsub x (List.mem_toFinset.mp hx))
  have := Finset.card_le_card h₂
  rw [h₁, List.card_toFinset] at this
  exact this

theorem dedup_idList_le (env : Env) :
    (idList env).dedup.length ≤ env.orgs.length := by
  have := (List.dedup_sublist (idList env)).length_le
  simpa [idList] using this

/-! ## Termination of the descendant recursion under acyclicity -/

theorem descendantsOfChildren_isSome {rec : Int → Option (List Int)}
    {cs : List Org} (h : ∀ c ∈ cs, (rec c.id).isSome) :
    (descendantsOfChildren rec cs).isSome := by
  induction cs with
  | nil => simp [descendantsOfChildren]
  | cons c cs ih =>
    rcases Option.isSome_iff_exists.mp (h c (by simp)) with ⟨d, hd⟩
    rcases Option.isSome_iff_exists.mp
        (ih (fun c hc => h c (List.mem_cons_of_mem _ hc))) with ⟨rest, hrest⟩
    simp [descendantsOfChildren, hd, hrest]

theorem getDescendantOrgIds_isSome_aux (env : Env) (hacyc : Acyclic env) :
    ∀ (fuel : Nat) (c : Int) (seen : List Int),
      ChildStack env (c :: seen) →
      (∀ x ∈ seen, x ∈ idList env) →
      (idList env).dedup.length ≤ fuel + seen.length →
      (getDescendantOrgIds env (fuel + 1) c).isSome := by
  intro fuel
  induction fuel using Nat.strong_induction_on with
  | _ fuel ih =>
    intro c seen hstack hseen hfuel
    unfold getDescendantOrgIds
    cases hlook : orgById env c with
    | none => simp
    | some o =>
      have hcmem : c ∈ idList env := by
        rcases orgById_mem hlook with ⟨hmem, hid⟩
        exact List.mem_map.mpr ⟨o, hmem, hid⟩
      rw [Option.isSome_map']
      refine descendantsOfChildren_isSome ?_
      intro ch hch
      have hedge : ChildEdge env c ch.id := childEdge_of_child hch
      have hstack' : ChildStack env (ch.id :: c :: seen) :=
        ChildStack.cons _ _ _ hedge hstack
      have hnodup : (ch.id :: c :: seen).Nodup := hacyc _ hstack'
      have hsub : ∀ x ∈ ch.id :: c :: seen, x ∈ idList env := by
        intro x hx
        rcases List.mem_cons.mp hx with rfl | hx
        · exact childEdge_target_mem hedge
        · rcases List.mem_cons.mp hx with rfl | hx
          · exact hcmem
          · exact hseen x hx
      have hlen : seen.length + 2 ≤ (idList env).dedup.length := by
        have := nodup_length_le hnodup hsub
        simpa [Nat.add_comm, Nat.add_left_comm] using this
      have hfuel2 : 2 ≤ fuel := by omega
      obtain ⟨fuel', rfl⟩ : ∃ f', fuel = f' + 1 := ⟨fuel - 1, by omega⟩
      exact ih fuel' (by omega) ch.id (c :: seen) hstack'
        (fun x hx => hsub x (List.mem_cons_of_mem _ hx))
        (by simp; omega)

/-- Under acyclicity, the descendant recursion terminates at the canonical
fuel for every id. -/
theorem getDescendantOrgIds_isSome (env : Env) (hacyc : Acyclic env)
    (orgId : Int) : (getDescendantOrgIds env (stdFuel env) orgId).isSome := by
  unfold stdFuel
  refine getDescendantOrgIds_isSome_aux env hacyc env.orgs.length orgId []
    (ChildStack.single orgId) (by simp) ?_
  simpa using dedup_idList_le env

/-! ## Fuel monotonicity of the descendant recursion -/

theorem descendantsOfChildren_congr {
    rec rec' : Int → Option (List Int)}
    (h : ∀ c (r : List Int), rec c = some r → rec' c = some r) :
    ∀ {cs : List Org} {ds : List Int},
      descendantsOfChildren rec cs = some ds →
      descendantsOfChildren rec' cs = some ds := by
  intro cs
  induction cs with
  | nil => intro ds hds; simpa [descendantsOfChildren] using hds
  | cons c cs ih =>
    intro ds hds
    unfold descendantsOfChildren at hds ⊢
    cases hrec : rec c.id with
    | none => rw [hrec] at hds; cases hds
    | some d =>
      rw [hrec] at hds
      cases hrest : descendantsOfChildren rec cs with
      | none => rw [hrest] at hds; cases hds
      | some rest =>
        rw [hrest] at hds
        rw [h c.id d hrec, ih hrest]
        exact hds

theorem getDescendantOrgIds_mono (env : Env) :
    ∀ (fuel : Nat) (orgId : Int) (r : List Int),
      getDescendantOrgIds env fuel orgId = some r →
      getDescendantOrgIds env (fuel + 1) orgId = some r := by
  intro fuel
  induction fuel using Nat.strong_induction_on with
  | _ fuel ih =>
    intro orgId r hr
    cases fuel with
    | zero => simp [getDescendantOrgIds] at hr
    | succ fuel =>
      unfold getDescendantOrgIds at hr ⊢
      cases hlook : orgById env orgId with
      | none => rw [hlook] at hr; exact hr
      | some o =>
        rw [hlook] at hr
        cases hds : descendantsOfChildren (getDescendantOrgIds env fuel)
            (childrenByParent env orgId) with
        | none => rw [hds] at hr; cases hr
        | some ds =>
          rw [hds] at hr
          rw [descendantsOfChildren_congr
            (fun c r h => ih fuel (Nat.lt_succ_self fuel) c r h) hds]
          exact hr

theorem getDescendantOrgIds_mono_le (env : Env) {f f' : Nat} (hle : f ≤ f')
    {orgId : Int} {r : List Int}
    (h : getDescendantOrgIds env f orgId = some r) :
    getDescendantOrgIds env f' orgId = some r := by
  have H : ∀ n, f ≤ n → getDescendantOrgIds env n orgId = some r := by
    intro n
    induction n with
    | zero =>
      intro hn
      have : f = 0 := by omega
      subst this
      simp [getDescendantOrgIds] at h
    | succ n ih =>
      intro hn
      rcases Nat.lt_or_ge f (n + 1) with hlt | hge
      · exact getDescendantOrgIds_mono env n orgId r (ih (by omega))
      · have : f = n + 1 := by omega
        subst this; exact h
  exact H f' hle

/-! ## Reachability, membership and distinctness of the descendant list -/

theorem reaches_trans {env : Env} {a b c : Int} (hab : Reaches env a b)
    (hbc : Reaches env b c) : Reaches env a c := by
  induction hbc with
  | refl => exact hab
  | step y z _ hedge ih => exact Reaches.step _ _ _ ih hedge

theorem childStack_of_reaches {env : Env} {a b : Int}
    (h : Reaches env a b) :
    a = b ∨ ∃ l, ChildStack env (b :: l ++ [a]) := by
  induction h with
  | refl => exact Or.inl rfl
  | step b c _ hedge ih =>
    rcases ih with rfl | ⟨l, hl⟩
    · exact Or.inr ⟨[], ChildStack.cons c a [] hedge (ChildStack.single a)⟩
    · exact Or.inr ⟨b :: l, ChildStack.cons c b (l ++ [a]) hedge hl⟩

/-- Under acyclicity, no node strictly reaches itself through a child
edge. -/
theorem no_cycle_back {env : Env} (hacyc : Acyclic env) {p c : Int}
    (hedge : ChildEdge env p c) (hreach : Reaches env c p) : False := by
  rcases childStack_of_reaches hreach with rfl | ⟨l, hl⟩
  · have hstack : ChildStack env [c, c] :=
      ChildStack.cons c c [] hedge (ChildStack.single c)
    have := hacyc _ hstack
    simp at this
  · have hstack : ChildStack env (c :: p :: l ++ [c]) :=
      ChildStack.cons c p (l ++ [c]) hedge hl
    have hnodup := hacyc _ hstack
    rcases List.nodup_cons.mp hnodup with ⟨hc, _⟩
    exact hc (by simp)

/-- With duplicate-free ids, the parent of a node is unique. -/
theorem parent_unique {env : Env} (hids : NodupIds env) {p₁ p₂ c : Int}
    (h₁ : ChildEdge env p₁ c) (h₂ : ChildEdge env p₂ c) : p₁ = p₂ := by
  rcases h₁ with ⟨o₁, ho₁, hp₁, hid₁⟩
  rcases h₂ with ⟨o₂, ho₂, hp₂, hid₂⟩
  have : o₁ = o₂ :=
    List.inj_on_of_nodup_map hids ho₁ ho₂ (by rw [hid₁, hid₂])
  subst this
  rw [hp₁] at hp₂
  exact (Option.some.injEq _ _).mp hp₂

/-- Last-step inversion of a reachability derivation. -/
theorem reaches_last_step {env : Env} {a x : Int} (h : Reaches env a x) :
    a = x ∨ ∃ z, Reaches env a z ∧ ChildEdge env z x := by
  induction h with
  | refl => exact Or.inl rfl
  | step b c hab hedge _ => exact Or.inr ⟨b, hab, hedge⟩

/-- In a forest, two ancestors of a common node are comparable. -/
theorem reaches_comparable {env : Env} (hids : NodupIds env) {b x : Int}
    (hbx : Reaches env b x) :
    ∀ a, Reaches env a x → Reaches env a b ∨ Reaches env b a := by
  induction hbx with
  | refl => exact fun a hax => Or.inl hax
  | step y x hby hedge ih =>
    intro a hax
    rcases reaches_last_step hax with rfl | ⟨z, haz, hzedge⟩
    · exact Or.inr (Reaches.step _ _ _ hby hedge)
    · have : z = y := parent_unique hids hzedge hedge
      subst this
      exact ih a haz

theorem mem_descendantsOfChildren {rec : Int → Option (List Int)}
    {cs : List Org} {ds : List Int}
    (h : descendantsOfChildren rec cs = some ds) {x : Int} :
    x ∈ ds ↔ ∃ c ∈ cs, ∃ d, rec c.id = some d ∧ x ∈ d := by
  induction cs generalizing ds with
  | nil =>
    unfold descendantsOfChildren at h
    cases h; simp
  | cons c cs ih =>
    unfold descendantsOfChildren at h
    cases hrec : rec c.id with
    | none => rw [hrec] at h; cases h
    | some d =>
      rw [hrec] at h
      cases hrest : descendantsOfChildren rec cs with
      | none => rw [hrest] at h; cases h
      | some rest =>
        rw [hrest] at h
        cases h
        constructor
        · intro hx
          rcases List.mem_append.mp hx with hx | hx
          · exact ⟨c, by simp, d, hrec, hx⟩
          · rcases (ih hrest).mp hx with ⟨c', hc', d', hd', hx'⟩
            exact ⟨c', List.mem_cons_of_mem _ hc', d', hd', hx'⟩
        · rintro ⟨c', hc', d', hd', hx'⟩
          rcases List.mem_cons.mp hc' with rfl | hc'
          · rw [hrec] at hd'; cases hd'
            exact List.mem_append_left _ hx'
          · exact List.mem_append_right _ ((ih hrest).mpr ⟨c', hc', d', hd', hx'⟩)

/-- Every listed descendant is reachable from the queried id. -/
theorem reaches_of_mem_getDescendantOrgIds (env : Env) :
    ∀ (fuel : Nat) (orgId : Int) (r : List Int),
      getDescendantOrgIds env fuel orgId = some r →
      ∀ x ∈ r, Reaches env orgId x := by
  intro fuel
  induction fuel using Nat.strong_induction_on with
  | _ fuel ih =>
    intro orgId r hr x hx
    cases fuel with
    | zero => simp [getDescendantOrgIds] at hr
    | succ fuel =>
      unfold getDescendantOrgIds at hr
      cases hlook : orgById env orgId with
      | none =>
        rw [hlook] at hr; cases hr; cases hx
      | some o =>
        rw [hlook] at hr
        cases hds : descendantsOfChildren (getDescendantOrgIds env fuel)
            (childrenByParent env orgId) with
        | none => rw [hds] at hr; cases hr
        | some ds =>
          rw [hds] at hr
          cases hr
          rcases List.mem_cons.mp hx with rfl | hx
          · exact Reaches.refl x
          · rcases (mem_descendantsOfChildren hds).mp hx with
              ⟨c, hc, d, hd, hxd⟩
            have hedge := childEdge_of_child hc
            have hreach := ih fuel (by omega) c.id d hd x hxd
            exact reaches_trans
              (Reaches.step _ _ _ (Reaches.refl orgId) hedge) hreach

/-- A nontrivial reachability derivation factors through a first edge. -/
theorem reaches_first_step {env : Env} {a x : Int} (h : Reaches env a x) :
    a = x ∨ ∃ c, ChildEdge env a c ∧ Reaches env c x := by
  induction h with
  | refl => exact Or.inl rfl
  | step b c hab hedge ih =>
    rcases ih with rfl | ⟨c', hc', hcb⟩
    · exact Or.inr ⟨c, hedge, Reaches.refl c⟩
    · exact Or.inr ⟨c', hc', Reaches.step _ _ _ hcb hedge⟩

theorem descendantsOfChildren_some_child {rec : Int → Option (List Int)}
    {cs : List Org} {ds : List Int}
    (h : descendantsOfChildren rec cs = some ds) {c : Org} (hc : c ∈ cs) :
    ∃ d, rec c.id = some d := by
  induction cs generalizing ds with
  | nil => cases hc
  | cons c' cs ih =>
    unfold descendantsOfChildren at h
    cases hrec : rec c'.id with
    | none => rw [hrec] at h; cases h
    | some d =>
      rw [hrec] at h
      cases hrest : descendantsOfChildren rec cs with
      | none => rw [hrest] at h; cases h
      | some rest =>
        rcases List.mem_cons.mp hc with rfl | hc
        · exact ⟨d, hrec⟩
        · exact ih hrest hc

/-- Every id reachable from a present id is listed. -/
theorem mem_getDescendantOrgIds_of_reaches (env : Env) :
    ∀ (fuel : Nat) (orgId : Int) (r : List Int),
      getDescendantOrgIds env fuel orgId = some r →
      (orgById env orgId).isSome →
      ∀ x, Reaches env orgId x → x ∈ r := by
  intro fuel
  induction fuel using Nat.strong_induction_on with
  | _ fuel ih =>
    intro orgId r hr hsome x hreach
    cases fuel with
    | zero => simp [getDescendantOrgIds] at hr
    | succ fuel =>
      unfold getDescendantOrgIds at hr
      rcases Option.isSome_iff_exists.mp hsome with ⟨o, hlook⟩
      rw [hlook] at hr
      cases hds : descendantsOfChildren (getDescendantOrgIds env fuel)
          (childrenByParent env orgId) with
      | none => rw [hds] at hr; cases hr
      | some ds =>
        rw [hds] at hr
        cases hr
        -- first-step analysis of the reachability derivation
        rcases reaches_first_step hreach with rfl | ⟨c, hedge, hcx⟩
        · simp
        · rcases hedge with ⟨oc, hoc, hocp, hocid⟩
          have hc : oc ∈ childrenByParent env orgId :=
            mem_childrenByParent.mpr ⟨hoc, hocp⟩
          have hrec : ∃ d, getDescendantOrgIds env fuel oc.id = some d :=
            descendantsOfChildren_some_child hds hc
          rcases hrec with ⟨d, hd⟩
          have hcsome : (orgById env oc.id).isSome := orgById_isSome_of_mem hoc
          have : x ∈ d := by
            refine ih fuel (by omega) oc.id d hd hcsome x ?_
            rw [hocid]; exact hcx
          exact List.mem_cons_of_mem _
            ((mem_descendantsOfChildren hds).mpr ⟨oc, hc, d, hd, this⟩)

/-- In a forest, the descendant sets of two distinct siblings are
disjoint. -/
theorem siblings_disjoint {env : Env} (hacyc : Acyclic env)
    (hids : NodupIds env) {p c₁ c₂ x : Int}
    (h₁ : ChildEdge env p c₁) (h₂ : ChildEdge env p c₂) (hne : c₁ ≠ c₂)
    (hr₁ : Reaches env c₁ x) (hr₂ : Reaches env c₂ x) : False := by
  rcases reaches_comparable hids hr₁ c₂ hr₂ with hcase | hcase
  · rcases reaches_last_step hcase with rfl | ⟨z, hz, hzedge⟩
    · exact hne rfl
    · have : z = p := parent_unique hids hzedge h₁
      subst this
      exact no_cycle_back hacyc h₂ hz
  · rcases reaches_last_step hcase with rfl | ⟨z, hz, hzedge⟩
    · exact hne rfl
    · have : z = p := parent_unique hids hzedge h₂
      subst this
      exact no_cycle_back hacyc h₁ hz

theorem childrenByParent_ids_nodup {env : Env} (hids : NodupIds env)
    (p : Int) : ((childrenByParent env p).map (fun o => o.id)).Nodup := by
  have hsub : List.Sublist ((childrenByParent env p).map (fun o => o.id))
      (idList env) :=
    (List.filter_sublist env.orgs).map (fun o => o.id)
  exact hids.sublist hsub

theorem descendantsOfChildren_nodup {env : Env} (hacyc : Acyclic env)
    (hids : NodupIds env) (fuel : Nat) (p : Int)
    (hrecnd : ∀ (cid : Int) (d : List Int),
      getDescendantOrgIds env fuel cid = some d → d.Nodup) :
    ∀ (cs : List Org) (ds : List Int),
      (∀ c ∈ cs, ChildEdge env p c.id) →
      (cs.map (fun o => o.id)).Nodup →
      descendantsOfChildren (getDescendantOrgIds env fuel) cs = some ds →
      ds.Nodup := by
  intro cs
  induction cs with
  | nil =>
    intro ds _ _ hds
    unfold descendantsOfChildren at hds
    cases hds; exact List.nodup_nil
  | cons c cs ihc =>
    intro ds hedges hidsnd hds
    unfold descendantsOfChildren at hds
    cases hrec : getDescendantOrgIds env fuel c.id with
    | none => rw [hrec] at hds; cases hds
    | some d =>
      rw [hrec] at hds
      cases hrest : descendantsOfChildren
          (getDescendantOrgIds env fuel) cs with
      | none => rw [hrest] at hds; cases hds
      | some rest =>
        rw [hrest] at hds
        cases hds
        refine List.nodup_append.mpr ⟨?_, ?_, ?_⟩
        · exact hrecnd c.id d hrec
        · refine ihc rest (fun c' hc' => hedges c' (by simp [hc'])) ?_ hrest
          rw [List.map_cons] at hidsnd
          exact (List.nodup_cons.mp hidsnd).2
        · intro x hxd hxrest
          rcases (mem_descendantsOfChildren hrest).mp hxrest with
            ⟨c', hc', d', hd', hx'⟩
          have hne : c.id ≠ c'.id := by
            rw [List.map_cons] at hidsnd
            have := (List.nodup_cons.mp hidsnd).1
            intro heq
            exact this (heq ▸ List.mem_map.mpr ⟨c', hc', rfl⟩)
          exact siblings_disjoint hacyc hids
            (hedges c (by simp)) (hedges c' (by simp [hc'])) hne
            (reaches_of_mem_getDescendantOrgIds env fuel c.id d hrec x hxd)
            (reaches_of_mem_getDescendantOrgIds env fuel c'.id d' hd' x hx')

/-- Under the forest hypotheses the descendant list is duplicate-free. -/
theorem getDescendantOrgIds_nodup (env : Env) (hacyc : Acyclic env)
    (hids : NodupIds env) :
    ∀ (fuel : Nat) (orgId : Int) (r : List Int),
      getDescendantOrgIds env fuel orgId = some r → r.Nodup := by
  intro fuel
  induction fuel using Nat.strong_induction_on with
  | _ fuel ih =>
    intro orgId r hr
    cases fuel with
    | zero => simp [getDescendantOrgIds] at hr
    | succ fuel =>
      unfold getDescendantOrgIds at hr
      cases hlook : orgById env orgId with
      | none => rw [hlook] at hr; cases hr; exact List.nodup_nil
      | some o =>
        rw [hlook] at hr
        cases hds : descendantsOfChildren (getDescendantOrgIds env fuel)
            (childrenByParent env orgId) with
        | none => rw [hds] at hr; cases hr
        | some ds =>
          rw [hds] at hr
          cases hr
          refine List.nodup_cons.mpr ⟨?_, ?_⟩
          · intro hmem
            rcases (mem_descendantsOfChildren hds).mp hmem with
              ⟨c, hc, d, hd, hx⟩
            exact no_cycle_back hacyc (childEdge_of_child hc)
              (reaches_of_mem_getDescendantOrgIds env fuel c.id d hd _ hx)
          · exact descendantsOfChildren_nodup hacyc hids fuel orgId
              (fun cid d h => ih fuel (Nat.lt_succ_self fuel) cid d h)
              (childrenByParent env orgId) ds
              (fun c hc => childEdge_of_child hc)
              (childrenByParent_ids_nodup hids orgId) hds

/-! ## Correctness of the memo cache -/

/-- Every cache entry stores the result the pure recursion computes at the
canonical fuel. -/
def CacheOK (env : Env) (cache : DescCache) : Prop :=
  ∀ k v, cacheGet cache k = some v →
    getDescendantOrgIds env (stdFuel env) k = some v

theorem cacheGet_append (cache : DescCache) (k : Int) (v : List Int)
    (k' : Int) :
    cacheGet (cache ++ [(k, v)]) k' =
      if k' = k then some v else cacheGet cache k' := by
  unfold cacheGet
  rw [List.reverse_append, List.reverse_singleton, List.singleton_append]
  by_cases h : k' = k
  · subst h
    rw [if_pos rfl, List.find?_cons_of_pos _ (by simp)]
    rfl
  · rw [if_neg h, List.find?_cons_of_neg _ (by simp; omega)]

theorem cacheOK_append {env : Env} {cache : DescCache} (h : CacheOK env cache)
    {k : Int} {v : List Int}
    (hv : getDescendantOrgIds env (stdFuel env) k = some v) :
    CacheOK env (cache ++ [(k, v)]) := by
  intro k' v' hget
  rw [cacheGet_append] at hget
  by_cases hk : k' = k
  · rw [if_pos hk] at hget
    cases hget
    rw [hk]; exact hv
  · rw [if_neg hk] at hget
    exact h k' v' hget

theorem memoChildren_correct (env : Env)
    {memoRec : Int → DescCache → Option (List Int × DescCache)}
    (hrec : ∀ (cid : Int) (cache : DescCache) (r : List Int)
      (c' : DescCache), CacheOK env cache → memoRec cid cache = some (r, c') →
      getDescendantOrgIds env (stdFuel env) cid = some r ∧ CacheOK env c') :
    ∀ (cs : List Org) (cache : DescCache) (ds : List Int)
      (cache₂ : DescCache),
      CacheOK env cache →
      (∀ c ∈ cs, (getDescendantOrgIds env env.orgs.length c.id).isSome) →
      memoChildren memoRec cs cache = some (ds, cache₂) →
      descendantsOfChildren (getDescendantOrgIds env env.orgs.length) cs =
        some ds ∧ CacheOK env cache₂ := by
  intro cs
  induction cs with
  | nil =>
    intro cache ds cache₂ hok _ hmemo
    unfold memoChildren at hmemo
    cases hmemo
    exact ⟨rfl, hok⟩
  | cons c cs ih =>
    intro cache ds cache₂ hok hsome hmemo
    unfold memoChildren at hmemo
    cases hrecc : memoRec c.id cache with
    | none => rw [hrecc] at hmemo; cases hmemo
    | some p =>
      obtain ⟨d, cacheMid⟩ := p
      simp only [hrecc] at hmemo
      cases hrest : memoChildren memoRec cs cacheMid with
      | none => simp only [hrest] at hmemo; cases hmemo
      | some q =>
        obtain ⟨rest, cacheEnd⟩ := q
        simp only [hrest, Option.some.injEq, Prod.mk.injEq] at hmemo
        obtain ⟨hds, hcache⟩ := hmemo
        subst hds
        subst hcache
        rcases hrec c.id cache d cacheMid hok hrecc with ⟨hpure, hokMid⟩
        rcases ih cacheMid rest cacheEnd hokMid
            (fun c' hc' => hsome c' (List.mem_cons_of_mem _ hc')) hrest with
          ⟨hpurerest, hokEnd⟩
        refine ⟨?_, hokEnd⟩
        rcases Option.isSome_iff_exists.mp (hsome c (by simp)) with ⟨d', hd'⟩
        have : getDescendantOrgIds env (stdFuel env) c.id = some d' := by
          unfold stdFuel
          exact getDescendantOrgIds_mono env env.orgs.length c.id d' hd'
        rw [hpure] at this
        cases this
        unfold descendantsOfChildren
        simp only [hd', hpurerest]

/-- The memoized recursion computes the pure result and keeps the cache
consistent. -/
theorem getDescendantOrgIdsMemo_correct (env : Env) (hacyc : Acyclic env) :
    ∀ (fuel : Nat) (orgId : Int) (cache : DescCache) (r : List Int)
      (c' : DescCache),
      CacheOK env cache →
      getDescendantOrgIdsMemo env fuel orgId cache = some (r, c') →
      getDescendantOrgIds env (stdFuel env) orgId = some r ∧
        CacheOK env c' := by
  intro fuel
  induction fuel using Nat.strong_induction_on with
  | _ fuel ih =>
    intro orgId cache r c' hok hmemo
    cases fuel with
    | zero => simp [getDescendantOrgIdsMemo] at hmemo
    | succ fuel =>
      unfold getDescendantOrgIdsMemo at hmemo
      cases hhit : cacheGet cache orgId with
      | some v =>
        rw [hhit] at hmemo
        cases hmemo
        exact ⟨hok orgId r hhit, hok⟩
      | none =>
        rw [hhit] at hmemo
        cases hlook : orgById env orgId with
        | none =>
          rw [hlook] at hmemo
          cases hmemo
          have hpure : getDescendantOrgIds env (stdFuel env) orgId =
              some [] := by
            unfold stdFuel getDescendantOrgIds
            rw [hlook]
          exact ⟨hpure, cacheOK_append hok hpure⟩
        | some o =>
          rw [hlook] at hmemo
          cases hmc : memoChildren (getDescendantOrgIdsMemo env fuel)
              (childrenByParent env orgId) cache with
          | none => rw [hmc] at hmemo; cases hmemo
          | some q =>
            obtain ⟨ds, cache₂⟩ := q
            rw [hmc] at hmemo
            cases hmemo
            have horgsne : 1 ≤ env.orgs.length :=
              List.length_pos.mpr
                (List.ne_nil_of_mem (orgById_mem hlook).1)
            have hsome : ∀ c ∈ childrenByParent env orgId,
                (getDescendantOrgIds env env.orgs.length c.id).isSome := by
              intro c hc
              have hedge := childEdge_of_child hc
              have horgIdmem : orgId ∈ idList env := by
                rcases orgById_mem hlook with ⟨hm, hi⟩
                exact List.mem_map.mpr ⟨o, hm, hi⟩
              have hstack : ChildStack env (c.id :: [orgId]) :=
                ChildStack.cons _ _ _ hedge (ChildStack.single orgId)
              obtain ⟨L', hL'⟩ : ∃ L', env.orgs.length = L' + 1 :=
                ⟨env.orgs.length - 1, by omega⟩
              rw [hL']
              refine getDescendantOrgIds_isSome_aux env hacyc L' c.id
                [orgId] hstack (by simpa using horgIdmem) ?_
              have := dedup_idList_le env
              simp
              omega
            rcases memoChildren_correct env
                (fun cid cache r c' hok h =>
                  ih fuel (Nat.lt_succ_self fuel) cid cache r c' hok h)
                (childrenByParent env orgId) cache ds cache₂ hok hsome hmc with
              ⟨hpurechildren, hok₂⟩
            have hpure : getDescendantOrgIds env (stdFuel env) orgId =
                some (orgId :: ds) := by
              unfold stdFuel getDescendantOrgIds
              rw [hlook, hpurechildren]
              rfl
            exact ⟨hpure, cacheOK_append hok₂ hpure⟩

/-! ## Establishing acyclicity from a rank function -/

theorem childStack_pairwise_lt {env : Env} (m : Int → Nat)
    (hm : ∀ p c, ChildEdge env p c → m c < m p) :
    ∀ l, ChildStack env l → l.Pairwise (fun a b => m a < m b) := by
  intro l hl
  induction hl with
  | nil => exact List.Pairwise.nil
  | single a => simp
  | cons c p rest hedge hstack ih =>
    refine List.pairwise_cons.mpr ⟨?_, ih⟩
    intro b hb
    rcases List.mem_cons.mp hb with rfl | hb
    · exact hm _ _ hedge
    · exact lt_trans (hm _ _ hedge) ((List.pairwise_cons.mp ih).1 b hb)

/-- A rank function that strictly decreases along child edges certifies the
forest invariant. -/
theorem acyclic_of_measure (env : Env) (m : Int → Nat)
    (hm : ∀ p c, ChildEdge env p c → m c < m p) : Acyclic env := by
  intro l hl
  refine List.Pairwise.imp ?_ (childStack_pairwise_lt m hm l hl)
  intro a b h heq
  subst heq
  exact absurd h (lt_irrefl _)

/-! ## A two-element parent cycle on which the recursion never returns -/

def cycOrgA : Org := ⟨1, some 2, "a", OrgType.region⟩

def cycOrgB : Org := ⟨2, some 1, "b", OrgType.region⟩

/-- An entity set whose parent graph is the 2-cycle `1 ↔ 2`. -/
def cycEnv : Env := ⟨[cycOrgA, cycOrgB], [], []⟩

/-- On the cyclic data the descendant recursion exhausts any fuel: the
source, which has no cycle guard, would recurse forever. -/
theorem cycEnv_no_fuel_suffices :
    ∀ fuel, getDescendantOrgIds cycEnv fuel 1 = none ∧
      getDescendantOrgIds cycEnv fuel 2 = none := by
  intro fuel
  induction fuel with
  | zero => exact ⟨rfl, rfl⟩
  | succ fuel ih =>
    obtain ⟨ih1, ih2⟩ := ih
    constructor
    · show getDescendantOrgIds cycEnv (fuel + 1) 1 = none
      unfold getDescendantOrgIds
      rw [show orgById cycEnv 1 = some cycOrgA from rfl,
        show childrenByParent cycEnv 1 = [cycOrgB] from rfl]
      unfold descendantsOfChildren
      rw [show cycOrgB.id = 2 from rfl, ih2]
      rfl
    · show getDescendantOrgIds cycEnv (fuel + 1) 2 = none
      unfold getDescendantOrgIds
      rw [show orgById cycEnv 2 = some cycOrgB from rfl,
        show childrenByParent cycEnv 2 = [cycOrgA] from rfl]
      unfold descendantsOfChildren
      rw [show cycOrgA.id = 1 from rfl, ih1]
      rfl

/-! ## Claim theorems: hierarchy index -/

/-- **C10.** Under the precondition that the parent graph is acyclic (the
forest invariant), `getDescendantOrgIds` terminates for every organization
id at the canonical fuel.  The recursion has no cycle guard: on the cyclic
entity set `cycEnv` every amount of fuel is exhausted, so termination rests
entirely on the precondition. -/
theorem c10_descend_termination (env : Env) (hacyc : Acyclic env)
    (orgId : Int) :
    (getDescendantOrgIds env (stdFuel env) orgId).isSome ∧
    (∀ fuel, getDescendantOrgIds cycEnv fuel 1 = none) :=
  ⟨getDescendantOrgIds_isSome env hacyc orgId,
    fun fuel => (cycEnv_no_fuel_suffices fuel).1⟩

/-- Witness environment: a three-level chain nation → sector → area. -/
def wEnvChain : Env :=
  ⟨[⟨1, none, "F3 Nation", OrgType.nation⟩,
    ⟨2, some 1, "South", OrgType.sector⟩,
    ⟨3, some 2, "Carolinas", OrgType.area⟩], [], []⟩

/-- A rank certificate for `wEnvChain`. -/
theorem wEnvChain_acyclic : Acyclic wEnvChain := by
  refine acyclic_of_measure wEnvChain
    (fun i => if i = 1 then 2 else if i = 2 then 1 else 0) ?_
  rintro p c ⟨o, ho, hp, hid⟩
  unfold wEnvChain at ho
  rcases List.mem_cons.mp ho with rfl | ho
  · cases hp
  · rcases List.mem_cons.mp ho with rfl | ho
    · cases hp; subst hid; decide
    · rcases List.mem_cons.mp ho with rfl | ho
      · cases hp; subst hid; decide
      · cases ho

theorem c10_descend_termination_witness :
    (getDescendantOrgIds wEnvChain (stdFuel wEnvChain) 2).isSome ∧
    (∀ fuel, getDescendantOrgIds cycEnv fuel 1 = none) :=
  c10_descend_termination wEnvChain wEnvChain_acyclic 2

/-- **C3.** For an organization id present in the entity map the descendant
computation (at the canonical fuel) returns a duplicate-free list whose
members are exactly the id itself and every transitively reachable child,
assuming the parent graph is a forest (acyclic, with unique record ids); an
id absent from the entity map yields the empty list; and a repeated
(memoized) call returns exactly the freshly recomputed result. -/
theorem c3_descendants_spec (env : Env) (hacyc : Acyclic env)
    (hids : NodupIds env) (orgId : Int) :
    ((orgById env orgId).isSome →
      ∃ r, getDescendantOrgIds env (stdFuel env) orgId = some r ∧
        r.Nodup ∧ ∀ x, x ∈ r ↔ Reaches env orgId x) ∧
    (orgById env orgId = none →
      getDescendantOrgIds env (stdFuel env) orgId = some []) ∧
    (∀ (r : List Int) (c₁ : DescCache) (r₂ : List Int) (c₂ : DescCache)
        (fuel₂ : Nat),
      getDescendantOrgIdsMemo env (stdFuel env) orgId [] = some (r, c₁) →
      getDescendantOrgIdsMemo env fuel₂ orgId c₁ = some (r₂, c₂) →
      r₂ = r ∧ getDescendantOrgIds env (stdFuel env) orgId = some r) := by
  have hempty : CacheOK env [] := by
    intro k v h
    simp [cacheGet] at h
  refine ⟨?_, ?_, ?_⟩
  · intro hsome
    rcases Option.isSome_iff_exists.mp
      (getDescendantOrgIds_isSome env hacyc orgId) with ⟨r, hr⟩
    refine ⟨r, hr, getDescendantOrgIds_nodup env hacyc hids _ _ _ hr, ?_⟩
    intro x
    constructor
    · exact reaches_of_mem_getDescendantOrgIds env _ _ _ hr x
    · exact mem_getDescendantOrgIds_of_reaches env _ _ _ hr hsome x
  · intro hnone
    unfold stdFuel getDescendantOrgIds
    rw [hnone]
  · intro r c₁ r₂ c₂ fuel₂ h₁ h₂
    rcases getDescendantOrgIdsMemo_correct env hacyc _ _ _ _ _ hempty h₁ with
      ⟨hpure₁, hok₁⟩
    rcases getDescendantOrgIdsMemo_correct env hacyc _ _ _ _ _ hok₁ h₂ with
      ⟨hpure₂, _⟩
    rw [hpure₁] at hpure₂
    exact ⟨(Option.some.injEq _ _).mp hpure₂.symm, hpure₁⟩

theorem c3_descendants_spec_witness :
    ((orgById wEnvChain 2).isSome →
      ∃ r, getDescendantOrgIds wEnvChain (stdFuel wEnvChain) 2 = some r ∧
        r.Nodup ∧ ∀ x, x ∈ r ↔ Reaches wEnvChain 2 x) ∧
    ((orgById wEnvChain 2 = none) →
      getDescendantOrgIds wEnvChain (stdFuel wEnvChain) 2 = some []) ∧
    (∀ (r : List Int) (c₁ : DescCache) (r₂ : List Int) (c₂ : DescCache)
        (fuel₂ : Nat),
      getDescendantOrgIdsMemo wEnvChain (stdFuel wEnvChain) 2 [] =
        some (r, c₁) →
      getDescendantOrgIdsMemo wEnvChain fuel₂ 2 c₁ = some (r₂, c₂) →
      r₂ = r ∧ getDescendantOrgIds wEnvChain (stdFuel wEnvChain) 2 =
        some r) :=
  c3_descendants_spec wEnvChain wEnvChain_acyclic
    (by unfold NodupIds; decide) 2

/-! ## Point aggregator: characterization of `getOrgPoints` -/

/-- The geographic point of a location id, when the location resolves and
has both coordinates. -/
def locPoint (env : Env) (lid : Int) : Option (Point ℚ) :=
  match locationById env lid with
  | none => none
  | some loc =>
    match loc.latitude, loc.longitude with
    | some la, some lo => some ⟨la, lo⟩
    | some _, none => none
    | none, _ => none

/-- The location id and point an event can contribute: a truthy (non-null,
nonzero) location id whose location has both coordinates. -/
def geoOf (env : Env) (e : Event) : Option (Int × Point ℚ) :=
  match e.locationId with
  | none => none
  | some lid =>
    if lid = 0 then none
    else (locPoint env lid).map (fun pt => (lid, pt))

/-- The in-order stream of contributable location ids over the descendant
ids (duplicates included). -/
def candidateLocIds (env : Env) (orgIds : List Int) : List Int :=
  (orgIds.flatMap (eventsByOrgId env)).filterMap
    (fun e => (geoOf env e).map Prod.fst)

/-- First-occurrence-wins deduplication relative to an already-seen set. -/
def firstDedupFrom (seen : List Int) : List Int → List Int
  | [] => []
  | x :: xs =>
    if x ∈ seen then firstDedupFrom seen xs
    else x :: firstDedupFrom (x :: seen) xs

/-- Some descendant has an event whose location resolves and has both
coordinates (the predicate of the claim, with no constraint on the id
value). -/
def HasGeoEvent (env : Env) (orgIds : List Int) : Prop :=
  ∃ did ∈ orgIds, ∃ e ∈ eventsByOrgId env did, ∃ lid,
    e.locationId = some lid ∧
    ∃ loc, locationById env lid = some loc ∧
      loc.latitude ≠ none ∧ loc.longitude ≠ none

/-- As `HasGeoEvent`, but requiring the location id to be truthy (nonzero),
matching the `!event.locationId` test of the source. -/
def HasGeoEventNZ (env : Env) (orgIds : List Int) : Prop :=
  ∃ did ∈ orgIds, ∃ e ∈ eventsByOrgId env did, ∃ lid,
    e.locationId = some lid ∧ lid ≠ 0 ∧
    ∃ loc, locationById env lid = some loc ∧
      loc.latitude ≠ none ∧ loc.longitude ≠ none

/-- The loop body in terms of the contributable pair. -/
theorem orgPointsStep_eq_geo (env : Env) (acc : List Int × List (Point ℚ))
    (e : Event) :
    orgPointsStep env acc e =
      match geoOf env e with
      | none => acc
      | some (lid, pt) =>
        if lid ∈ acc.1 then acc else (acc.1 ++ [lid], acc.2 ++ [pt]) := by
  unfold orgPointsStep geoOf locPoint
  cases e.locationId with
  | none => rfl
  | some lid =>
    dsimp only
    by_cases h0 : lid = 0
    · subst h0
      simp
    · rw [if_neg h0]
      by_cases hmem : lid ∈ acc.1
      · rw [if_pos (Or.inr hmem)]
        cases locationById env lid with
        | none => simp
        | some loc =>
          cases hla : loc.latitude with
          | none => simp [hla]
          | some la =>
            cases hlo : loc.longitude with
            | none => simp [hla, hlo]
            | some lo => simp [hla, hlo, if_pos hmem]
      · rw [if_neg (by push_neg; exact ⟨h0, hmem⟩)]
        cases locationById env lid with
        | none => simp
        | some loc =>
          cases hla : loc.latitude with
          | none => simp [hla]
          | some la =>
            cases hlo : loc.longitude with
            | none => simp [hla, hlo]
            | some lo => simp [hla, hlo, if_neg hmem]

/-- `firstDedupFrom` only depends on the membership of the seen set. -/
theorem firstDedupFrom_congr {s₁ s₂ : List Int}
    (h : ∀ x, x ∈ s₁ ↔ x ∈ s₂) :
    ∀ l, firstDedupFrom s₁ l = firstDedupFrom s₂ l := by
  intro l
  induction l generalizing s₁ s₂ with
  | nil => rfl
  | cons x xs ih =>
    unfold firstDedupFrom
    by_cases hx : x ∈ s₁
    · rw [if_pos hx, if_pos ((h x).mp hx)]
      exact ih h
    · rw [if_neg hx, if_neg (fun hc => hx ((h x).mpr hc))]
      refine congrArg _ (ih ?_)
      intro y
      simp only [List.mem_cons]
      exact or_congr Iff.rfl (h y)

theorem firstDedupFrom_nodup (seen : List Int) (l : List Int) :
    (firstDedupFrom seen l).Nodup ∧
      ∀ x ∈ firstDedupFrom seen l, x ∉ seen := by
  induction l generalizing seen with
  | nil => exact ⟨List.nodup_nil, by simp [firstDedupFrom]⟩
  | cons x xs ih =>
    unfold firstDedupFrom
    by_cases hx : x ∈ seen
    · rw [if_pos hx]; exact ih seen
    · rw [if_neg hx]
      obtain ⟨hnd, hnm⟩ := ih (x :: seen)
      refine ⟨List.nodup_cons.mpr ⟨?_, hnd⟩, ?_⟩
      · intro hc
        exact hnm x hc (by simp)
      · intro y hy
        rcases List.mem_cons.mp hy with rfl | hy
        · exact hx
        · intro hc
          exact hnm y hy (List.mem_cons_of_mem _ hc)

/-- The candidate ids of one event list. -/
def eventCandIds (env : Env) (es : List Event) : List Int :=
  es.filterMap (fun e => (geoOf env e).map Prod.fst)

/-- Characterization of the inner fold: relative to an arbitrary starting
accumulator, each new first-occurrence candidate id appends its id and its
location's point. -/
theorem foldl_orgPointsStep_char (env : Env) :
    ∀ (es : List Event) (seen : List Int) (pts : List (Point ℚ)),
      es.foldl (orgPointsStep env) (seen, pts) =
        (seen ++ firstDedupFrom seen (eventCandIds env es),
         pts ++ (firstDedupFrom seen (eventCandIds env es)).filterMap
           (locPoint env)) := by
  intro es
  induction es with
  | nil => intro seen pts; simp [eventCandIds, firstDedupFrom]
  | cons e es ih =>
    intro seen pts
    rw [List.foldl_cons, orgPointsStep_eq_geo]
    cases hgeo : geoOf env e with
    | none =>
      have hc : eventCandIds env (e :: es) = eventCandIds env es := by
        unfold eventCandIds
        rw [List.filterMap_cons, hgeo]
        rfl
      rw [hc]
      exact ih seen pts
    | some p =>
      obtain ⟨lid, pt⟩ := p
      have hc : eventCandIds env (e :: es) = lid :: eventCandIds env es := by
        unfold eventCandIds
        rw [List.filterMap_cons, hgeo]
        rfl
      rw [hc]
      have hpt : locPoint env lid = some pt := by
        unfold geoOf at hgeo
        cases hl : e.locationId with
        | none => rw [hl] at hgeo; cases hgeo
        | some lid' =>
          rw [hl] at hgeo
          dsimp only at hgeo
          by_cases h0 : lid' = 0
          · rw [if_pos h0] at hgeo; cases hgeo
          · rw [if_neg h0] at hgeo
            cases hlp : locPoint env lid' with
            | none => rw [hlp] at hgeo; cases hgeo
            | some pt' =>
              rw [hlp] at hgeo
              cases hgeo
              exact hlp
      by_cases hmem : lid ∈ seen
      · simp only [if_pos hmem]
        unfold firstDedupFrom
        rw [if_pos hmem]
        exact ih seen pts
      · simp only [if_neg hmem]
        unfold firstDedupFrom
        rw [if_neg hmem]
        rw [ih (seen ++ [lid]) (pts ++ [pt])]
        have hdd : firstDedupFrom (seen ++ [lid]) (eventCandIds env es) =
            firstDedupFrom (lid :: seen) (eventCandIds env es) := by
          refine firstDedupFrom_congr ?_ _
          intro y; simp [Or.comm]
        rw [hdd]
        simp [List.filterMap_cons, hpt]

/-- The double loop equals the fold over the flattened event stream. -/
theorem getOrgPointsAux_eq_flat (env : Env) (orgIds : List Int) :
    getOrgPointsAux env orgIds =
      (orgIds.flatMap (eventsByOrgId env)).foldl (orgPointsStep env)
        ([], []) := by
  unfold getOrgPointsAux
  suffices h : ∀ (ids : List Int) (init : List Int × List (Point ℚ)),
      ids.foldl (fun acc did =>
        (eventsByOrgId env did).foldl (orgPointsStep env) acc) init =
      (ids.flatMap (eventsByOrgId env)).foldl (orgPointsStep env) init by
    exact h orgIds ([], [])
  intro ids
  induction ids with
  | nil => intro init; simp
  | cons d ds ih =>
    intro init
    rw [List.foldl_cons, ih, List.flatMap_cons, List.foldl_append]

/-- The final characterization of the aggregator's accumulator. -/
theorem getOrgPointsAux_char (env : Env) (orgIds : List Int) :
    getOrgPointsAux env orgIds =
      (firstDedupFrom [] (candidateLocIds env orgIds),
       (firstDedupFrom [] (candidateLocIds env orgIds)).filterMap
         (locPoint env)) := by
  rw [getOrgPointsAux_eq_flat, foldl_orgPointsStep_char]
  unfold candidateLocIds eventCandIds
  simp

theorem geoOf_some {env : Env} {e : Event} {lid : Int} {pt : Point ℚ}
    (h : geoOf env e = some (lid, pt)) :
    e.locationId = some lid ∧ lid ≠ 0 ∧ locPoint env lid = some pt := by
  unfold geoOf at h
  cases hl : e.locationId with
  | none => rw [hl] at h; cases h
  | some lid' =>
    rw [hl] at h
    dsimp only at h
    by_cases h0 : lid' = 0
    · rw [if_pos h0] at h; cases h
    · rw [if_neg h0] at h
      cases hlp : locPoint env lid' with
      | none => rw [hlp] at h; cases h
      | some pt' =>
        rw [hlp] at h
        cases h
        exact ⟨rfl, h0, hlp⟩

theorem geoOf_isSome_iff {env : Env} {e : Event} :
    (geoOf env e).isSome ↔
      ∃ lid, e.locationId = some lid ∧ lid ≠ 0 ∧
        ∃ loc, locationById env lid = some loc ∧
          loc.latitude ≠ none ∧ loc.longitude ≠ none := by
  constructor
  · intro h
    rcases Option.isSome_iff_exists.mp h with ⟨p, hp⟩
    obtain ⟨lid, pt⟩ := p
    rcases geoOf_some hp with ⟨hl, h0, hlp⟩
    refine ⟨lid, hl, h0, ?_⟩
    unfold locPoint at hlp
    cases hloc : locationById env lid with
    | none => rw [hloc] at hlp; cases hlp
    | some loc =>
      rw [hloc] at hlp
      dsimp only at hlp
      cases hla : loc.latitude with
      | none => simp [hla] at hlp
      | some la =>
        cases hlo : loc.longitude with
        | none => simp [hla, hlo] at hlp
        | some lo => exact ⟨loc, rfl, by simp [hla], by simp [hlo]⟩
  · rintro ⟨lid, hl, h0, loc, hloc, hla, hlo⟩
    unfold geoOf
    rw [hl]
    dsimp only
    rw [if_neg h0]
    rw [Option.isSome_map']
    unfold locPoint
    rw [hloc]
    cases hla' : loc.latitude with
    | none => exact absurd hla' hla
    | some la =>
      cases hlo' : loc.longitude with
      | none => exact absurd hlo' hlo
      | some lo => simp [hla', hlo']

theorem hasGeoEventNZ_iff (env : Env) (orgIds : List Int) :
    HasGeoEventNZ env orgIds ↔
      ∃ e ∈ orgIds.flatMap (eventsByOrgId env), (geoOf env e).isSome := by
  unfold HasGeoEventNZ
  constructor
  · rintro ⟨did, hdid, e, he, lid, hl, h0, loc, hloc, hla, hlo⟩
    exact ⟨e, List.mem_flatMap.mpr ⟨did, hdid, he⟩,
      geoOf_isSome_iff.mpr ⟨lid, hl, h0, loc, hloc, hla, hlo⟩⟩
  · rintro ⟨e, he, hsome⟩
    rcases List.mem_flatMap.mp he with ⟨did, hdid, he'⟩
    rcases geoOf_isSome_iff.mp hsome with ⟨lid, hl, h0, loc, hloc, hla, hlo⟩
    exact ⟨did, hdid, e, he', lid, hl, h0, loc, hloc, hla, hlo⟩

theorem candidateLocIds_eq_nil_iff (env : Env) (orgIds : List Int) :
    candidateLocIds env orgIds = [] ↔ ¬ HasGeoEventNZ env orgIds := by
  unfold candidateLocIds
  rw [hasGeoEventNZ_iff, List.filterMap_eq_nil_iff]
  constructor
  · rintro h ⟨e, he, hsome⟩
    have := h e he
    rw [Option.map_eq_none'] at this
    rw [this] at hsome
    cases hsome
  · intro h e he
    rw [Option.map_eq_none']
    cases hgeo : geoOf env e with
    | none => rfl
    | some p => exact absurd ⟨e, he, by rw [hgeo]; rfl⟩ h

theorem mem_firstDedupFrom_sub {seen : List Int} {l : List Int} {x : Int}
    (h : x ∈ firstDedupFrom seen l) : x ∈ l := by
  induction l generalizing seen with
  | nil => cases h
  | cons y ys ih =>
    unfold firstDedupFrom at h
    by_cases hy : y ∈ seen
    · rw [if_pos hy] at h
      exact List.mem_cons_of_mem _ (ih h)
    · rw [if_neg hy] at h
      rcases List.mem_cons.mp h with rfl | h
      · simp
      · exact List.mem_cons_of_mem _ (ih h)

theorem mem_candidateLocIds_locPoint {env : Env} {orgIds : List Int}
    {x : Int} (h : x ∈ candidateLocIds env orgIds) :
    (locPoint env x).isSome := by
  unfold candidateLocIds at h
  rcases List.mem_filterMap.mp h with ⟨e, _, hmap⟩
  cases hgeo : geoOf env e with
  | none => rw [hgeo] at hmap; cases hmap
  | some p =>
    rw [hgeo] at hmap
    obtain ⟨lid, pt⟩ := p
    cases hmap
    rw [(geoOf_some hgeo).2.2]
    rfl

theorem firstDedupFrom_nil_eq_nil_iff (l : List Int) :
    firstDedupFrom [] l = [] ↔ l = [] := by
  cases l with
  | nil => simp [firstDedupFrom]
  | cons x xs =>
    unfold firstDedupFrom
    rw [if_neg (List.not_mem_nil x)]
    simp

/-! ## Claim theorems: point aggregator -/

/-- Counterexample entity set for the untruthy location id 0: one region
with one event whose location id is `0`, and a geolocatable location with
id `0`. -/
def cexEnv : Env :=
  ⟨[⟨1, none, "Rgn", OrgType.region⟩],
   [⟨0, some 1, some 2⟩],
   [⟨1, some 0, [1], []⟩]⟩

def cexOrg : Org := ⟨1, none, "Rgn", OrgType.region⟩

/-- **C2, counterexample.** On `cexEnv` the aggregator returns no points,
yet the organization's only descendant has an event whose location resolves
with both coordinates present: the claimed equivalence "empty iff no
descendant has a geolocatable event" is false, because the source treats the
location id 0 as falsy (`!event.locationId`) and skips it. -/
theorem c2_counterexample :
    getOrgPoints cexEnv (stdFuel cexEnv) cexOrg = some [] ∧
    getDescendantOrgIds cexEnv (stdFuel cexEnv) cexOrg.id = some [1] ∧
    HasGeoEvent cexEnv [1] ∧
    ¬ (([] : List (Point ℚ)) = [] ↔ ¬ HasGeoEvent cexEnv [1]) := by
  have hgeo : HasGeoEvent cexEnv [1] := by
    refine ⟨1, by simp, ⟨1, some 0, [1], []⟩, ?_, 0, rfl,
      ⟨0, some 1, some 2⟩, rfl, by simp, by simp⟩
    rw [show eventsByOrgId cexEnv 1 = [⟨1, some 0, [1], []⟩] from rfl]
    simp
  exact ⟨rfl, rfl, hgeo, fun h => (h.mp rfl) hgeo⟩

/-- **C2, amended.** For every organization whose descendant computation
succeeds, the points list is tagged by pairwise-distinct originating
location ids (first occurrence wins, insertion order preserved: the tags
are the first-wins deduplication of the in-order candidate stream, and each
point is its tag's location point), and the result is empty iff no
descendant has an event with a truthy (non-null, nonzero) location id whose
location has both coordinates present. -/
theorem c2_points_dedup_spec (env : Env) (fuel : Nat) (org : Org)
    (pts : List (Point ℚ)) (h : getOrgPoints env fuel org = some pts) :
    ∃ r, getDescendantOrgIds env fuel org.id = some r ∧
      (getOrgPointsAux env r).1.Nodup ∧
      (getOrgPointsAux env r).1 =
        firstDedupFrom [] (candidateLocIds env r) ∧
      pts = (getOrgPointsAux env r).1.filterMap (locPoint env) ∧
      (pts = [] ↔ ¬ HasGeoEventNZ env r) := by
  unfold getOrgPoints at h
  cases hr : getDescendantOrgIds env fuel org.id with
  | none => rw [hr] at h; cases h
  | some r =>
    rw [hr] at h
    cases h
    dsimp only
    refine ⟨r, rfl, ?_, ?_, ?_, ?_⟩
    · rw [getOrgPointsAux_char]
      exact (firstDedupFrom_nodup [] (candidateLocIds env r)).1
    · rw [getOrgPointsAux_char]
    · rw [getOrgPointsAux_char]
    · rw [getOrgPointsAux_char]
      dsimp only
      rw [← candidateLocIds_eq_nil_iff]
      constructor
      · intro hnil
        by_contra hne
        have hcand : candidateLocIds env r ≠ [] := hne
        cases hc : candidateLocIds env r with
        | nil => exact hcand hc
        | cons x xs =>
          have hx : x ∈ firstDedupFrom [] (candidateLocIds env r) := by
            rw [hc]
            unfold firstDedupFrom
            rw [if_neg (List.not_mem_nil x)]
            simp
          have hsome : (locPoint env x).isSome :=
            mem_candidateLocIds_locPoint
              (mem_firstDedupFrom_sub hx)
          rcases Option.isSome_iff_exists.mp hsome with ⟨pt, hpt⟩
          have : pt ∈ (firstDedupFrom [] (candidateLocIds env r)).filterMap
              (locPoint env) :=
            List.mem_filterMap.mpr ⟨x, hx, hpt⟩
          rw [hnil] at this
          cases this
      · intro hnil
        rw [hnil]
        rfl

theorem c2_points_dedup_spec_witness :
    ∃ r, getDescendantOrgIds cexEnv (stdFuel cexEnv) cexOrg.id = some r ∧
      (getOrgPointsAux cexEnv r).1.Nodup ∧
      (getOrgPointsAux cexEnv r).1 =
        firstDedupFrom [] (candidateLocIds cexEnv r) ∧
      ([] : List (Point ℚ)) =
        (getOrgPointsAux cexEnv r).1.filterMap (locPoint cexEnv) ∧
      (([] : List (Point ℚ)) = [] ↔ ¬ HasGeoEventNZ cexEnv r) :=
  c2_points_dedup_spec cexEnv (stdFuel cexEnv) cexOrg [] rfl

/-! ## Claim theorems: persisted-state restoration -/

/-- The navigation state at startup, before `restoreStateFromUrl` runs. -/
def defaultNav : NavState := ⟨JsNum.num 0, []⟩

/-- **C8, counterexample.** A level parameter that does not parse
(`?level=abc`) leaves the selected path empty but sets the level index to
`NaN`, not `0`: the claim that every malformed parameter set falls back to
level index 0 is false. -/
theorem c8_counterexample :
    restoreStateFromUrl wEnvChain (stdFuel wEnvChain)
        ⟨none, some "abc"⟩ defaultNav =
      some ⟨JsNum.nan, []⟩ ∧
    JsNum.nan ≠ JsNum.num 0 :=
  ⟨rfl, by simp⟩

/-- **C8, amended.** From the startup default state, an organization-id
parameter that does not resolve (it fails to parse, or no organization has
the parsed id) leaves the state at level 0 with an empty path, as does an
absent parameter set; but a non-empty level parameter that does not parse
sets the level index to `NaN` (with an empty path) rather than 0. -/
theorem c8_restore_malformed (env : Env) (fuel : Nat) (str : String)
    (hne : str ≠ "") :
    (orgByJsNum env (parseInt str) = none →
      ∀ lvl, restoreStateFromUrl env fuel ⟨some str, lvl⟩ defaultNav =
        some defaultNav) ∧
    (parseInt str = JsNum.nan →
      restoreStateFromUrl env fuel ⟨none, some str⟩ defaultNav =
        some ⟨JsNum.nan, []⟩) ∧
    restoreStateFromUrl env fuel ⟨none, none⟩ defaultNav =
      some defaultNav := by
  refine ⟨?_, ?_, ?_⟩
  · intro hmiss lvl
    unfold restoreStateFromUrl
    dsimp only
    rw [if_neg hne, hmiss]
  · intro hnan
    unfold restoreStateFromUrl restoreLevelBranch
    dsimp only
    rw [if_neg hne, hnan]
  · rfl

theorem c8_restore_malformed_witness :
    ((orgByJsNum wEnvChain (parseInt "abc") = none →
      ∀ lvl, restoreStateFromUrl wEnvChain 0 ⟨some "abc", lvl⟩ defaultNav =
        some defaultNav) ∧
    (parseInt "abc" = JsNum.nan →
      restoreStateFromUrl wEnvChain 0 ⟨none, some "abc"⟩ defaultNav =
        some ⟨JsNum.nan, []⟩) ∧
    restoreStateFromUrl wEnvChain 0 ⟨none, none⟩ defaultNav =
      some defaultNav) ∧
    orgByJsNum wEnvChain (parseInt "abc") = none ∧
    parseInt "abc" = JsNum.nan :=
  ⟨c8_restore_malformed wEnvChain 0 "abc" (by decide), rfl, rfl⟩

/-! ## Claim theorems: polygon clicks -/

/-- Witness environment for clicks: an area and a region inside it. -/
def clickEnv : Env :=
  ⟨[⟨2, none, "Piedmont", OrgType.area⟩,
    ⟨3, some 2, "Metro", OrgType.region⟩], [], []⟩

def clickParent : Org := ⟨2, none, "Piedmont", OrgType.area⟩

def clickRegion : Org := ⟨3, some 2, "Metro", OrgType.region⟩

/-- **C7, counterexample.** At level 2 with an empty path, the region-typed
organization `clickRegion` is displayed, yet clicking it changes nothing
(`if (org.orgType === 'region') return`): the resulting state is not
`([parent, clicked], 3)`. -/
theorem c7_counterexample :
    getCurrentLevelOrgs clickEnv (stdFuel clickEnv) ⟨JsNum.num 2, []⟩ =
      some [clickRegion] ∧
    clickOrg clickEnv ⟨JsNum.num 2, []⟩ clickRegion = ⟨JsNum.num 2, []⟩ ∧
    (⟨JsNum.num 2, []⟩ : NavState) ≠
      ⟨JsNum.num 3, [clickParent, clickRegion]⟩ := by
  refine ⟨rfl, rfl, ?_⟩
  intro h
  cases h

/-- **C7, amended.** Clicking a displayed region-typed organization is a
no-op (regions are view-only).  The two-element path synthesis the claim
describes applies to clicks on area-typed organizations: with an empty
selected path, a resolvable non-nation parent (with truthy id), no
international override and a non-terminal level, the path becomes
`[parent, clicked]` and the level index increments by one. -/
theorem c7_click_spec (env : Env) (s : NavState) (org : Org) :
    (org.orgType = OrgType.region → clickOrg env s org = s) ∧
    (∀ parent : Org,
      org.orgType = OrgType.area →
      s.selectedPath = [] →
      jsGe s.currentLevelIndex (levelOrder.length - 1) = false →
      org.parentId = some parent.id →
      parent.id ≠ 0 →
      orgById env parent.id = some parent →
      parent.orgType ≠ OrgType.nation →
      isSectorInternational org = false →
      isGeneralInternationalArea org = false →
      clickOrg env s org =
        ⟨jsAdd s.currentLevelIndex 1, [parent, org]⟩) := by
  constructor
  · intro hreg
    unfold clickOrg
    rw [if_pos hreg]
  · intro parent htype hpath hge hpid hp0 hlook hpar hstar1 hstar2
    unfold clickOrg
    rw [if_neg (by rw [htype]; intro h; cases h), hge]
    simp only [Bool.false_eq_true, if_false, if_pos hpath, hpid,
      if_neg hp0, hlook, if_pos hpar, hstar1, hstar2, Bool.or_self]

theorem c7_click_spec_witness :
    ((clickRegion.orgType = OrgType.region →
      clickOrg clickEnv ⟨JsNum.num 2, []⟩ clickRegion = ⟨JsNum.num 2, []⟩) ∧
    (∀ parent : Org,
      clickRegion.orgType = OrgType.area →
      ([] : List Org) = [] →
      jsGe (JsNum.num 2) (levelOrder.length - 1) = false →
      clickRegion.parentId = some parent.id →
      parent.id ≠ 0 →
      orgById clickEnv parent.id = some parent →
      parent.orgType ≠ OrgType.nation →
      isSectorInternational clickRegion = false →
      isGeneralInternationalArea clickRegion = false →
      clickOrg clickEnv ⟨JsNum.num 2, []⟩ clickRegion =
        ⟨jsAdd (JsNum.num 2) 1, [parent, clickRegion]⟩)) ∧
    clickRegion.orgType = OrgType.region :=
  ⟨c7_click_spec clickEnv ⟨JsNum.num 2, []⟩ clickRegion, rfl⟩

/-! ## Decimal round trip: `parseInt (intToString i) = i` -/

/-- Little-endian decimal digit values of a natural number. -/
def natDigitsValRev : Nat → List Nat
  | 0 => []
  | n + 1 => ((n + 1) % 10) :: natDigitsValRev ((n + 1) / 10)
decreasing_by exact Nat.div_lt_self (Nat.succ_pos n) (by omega)

theorem natDigitsValRev_lt (n : Nat) : ∀ d ∈ natDigitsValRev n, d < 10 := by
  induction n using Nat.strong_induction_on with
  | _ n ih =>
    cases n with
    | zero => intro d hd; unfold natDigitsValRev at hd; cases hd
    | succ m =>
      intro d hd
      unfold natDigitsValRev at hd
      rcases List.mem_cons.mp hd with rfl | hd
      · omega
      · exact ih ((m + 1) / 10) (Nat.div_lt_self (Nat.succ_pos m) (by omega))
          d hd

theorem natDigitsValRev_ne_nil {n : Nat} (h : 0 < n) :
    natDigitsValRev n ≠ [] := by
  cases n with
  | zero => omega
  | succ m => unfold natDigitsValRev; simp

theorem natDigitsRev_eq_map (n : Nat) :
    natDigitsRev n = (natDigitsValRev n).map (fun d => Char.ofNat (48 + d)) := by
  induction n using Nat.strong_induction_on with
  | _ n ih =>
    cases n with
    | zero => unfold natDigitsRev natDigitsValRev; rfl
    | succ m =>
      unfold natDigitsRev natDigitsValRev
      rw [List.map_cons,
        ih ((m + 1) / 10) (Nat.div_lt_self (Nat.succ_pos m) (by omega))]

theorem digitVal_ofNat {d : Nat} (hd : d < 10) :
    digitVal (Char.ofNat (48 + d)) = some d := by
  interval_cases d <;> decide

theorem digitChar_not_whitespace {d : Nat} (hd : d < 10) :
    (Char.ofNat (48 + d)).isWhitespace = false := by
  interval_cases d <;> decide

theorem digitChar_ne_sign {d : Nat} (hd : d < 10) :
    Char.ofNat (48 + d) ≠ '-' ∧ Char.ofNat (48 + d) ≠ '+' := by
  interval_cases d <;> decide

theorem takeDigits_map_ofNat {vals : List Nat} (h : ∀ d ∈ vals, d < 10) :
    takeDigits (vals.map (fun d => Char.ofNat (48 + d))) = vals := by
  induction vals with
  | nil => rfl
  | cons d ds ih =>
    rw [List.map_cons]
    unfold takeDigits
    rw [digitVal_ofNat (h d (by simp))]
    rw [ih (fun d' hd' => h d' (List.mem_cons_of_mem _ hd'))]

theorem foldl_digits_reverse :
    ∀ (n : Nat) (acc : Nat),
      ((natDigitsValRev n).reverse).foldl (fun a d => a * 10 + d) acc =
        acc * 10 ^ (natDigitsValRev n).length + n := by
  intro n
  induction n using Nat.strong_induction_on with
  | _ n ih =>
    intro acc
    cases n with
    | zero => simp [natDigitsValRev]
    | succ m =>
      unfold natDigitsValRev
      rw [List.reverse_cons, List.foldl_append,
        ih ((m + 1) / 10) (Nat.div_lt_self (Nat.succ_pos m) (by omega)) acc]
      simp only [List.foldl_cons, List.foldl_nil, List.length_cons]
      rw [pow_succ]
      have := Nat.div_add_mod (m + 1) 10
      ring_nf
      omega

/-- The digit characters of a positive natural, most significant first. -/
theorem natToString_data {n : Nat} (h : 0 < n) :
    (natToString n).data =
      ((natDigitsValRev n).reverse).map (fun d => Char.ofNat (48 + d)) := by
  unfold natToString
  rw [if_neg (by omega), natDigitsRev_eq_map, List.map_reverse]

theorem dropWhile_not_whitespace {l : List Char}
    (h : ∀ c ∈ l.take 1, c.isWhitespace = false) :
    l.dropWhile (fun c => c.isWhitespace) = l := by
  cases l with
  | nil => rfl
  | cons c cs =>
    rw [List.dropWhile_cons]
    rw [h c (by simp)]
    simp

theorem parseInt_natToString {n : Nat} (h : 0 < n) :
    parseInt (natToString n) = JsNum.num n := by
  unfold parseInt
  rw [natToString_data h]
  have hvals : ∀ d ∈ (natDigitsValRev n).reverse, d < 10 := by
    intro d hd
    exact natDigitsValRev_lt n d (List.mem_reverse.mp hd)
  obtain ⟨d0, rest, hrest⟩ : ∃ d0 rest, (natDigitsValRev n).reverse =
      d0 :: rest := by
    cases hv : (natDigitsValRev n).reverse with
    | nil =>
      exfalso
      exact natDigitsValRev_ne_nil h (by
        have := congrArg List.reverse hv
        simpa using this)
    | cons d0 rest => exact ⟨d0, rest, rfl⟩
  rw [hrest]
  have hd0 : d0 < 10 := hvals d0 (by simp [hrest])
  have hne1 : Char.ofNat (48 + d0) ≠ '-' := (digitChar_ne_sign hd0).1
  have hne2 : ¬(Char.ofNat (48 + d0) = '-' ∨ Char.ofNat (48 + d0) = '+') := by
    push_neg
    exact digitChar_ne_sign hd0
  rw [List.map_cons]
  rw [dropWhile_not_whitespace (by
    intro c hc
    simp at hc
    subst hc
    exact digitChar_not_whitespace hd0)]
  dsimp only
  rw [if_neg hne1, if_neg hne2]
  have hmapcons : Char.ofNat (48 + d0) ::
      List.map (fun d => Char.ofNat (48 + d)) rest =
      List.map (fun d => Char.ofNat (48 + d)) (d0 :: rest) := rfl
  rw [hmapcons, ← hrest, takeDigits_map_ofNat hvals]
  rw [if_neg (by
    intro hc
    exact natDigitsValRev_ne_nil h (by
      have := congrArg List.reverse hc
      simpa using this))]
  rw [foldl_digits_reverse n 0]
  simp

theorem parseInt_intToString (i : Int) :
    parseInt (intToString i) = JsNum.num i := by
  unfold intToString
  by_cases hneg : i < 0
  · rw [if_pos hneg]
    have hpos : 0 < i.natAbs := by omega
    unfold parseInt
    have hdata : ("-" ++ natToString i.natAbs).data =
        '-' :: (natToString i.natAbs).data := by
      simp [String.data_append]
    rw [hdata, natToString_data hpos]
    have hvals : ∀ d ∈ (natDigitsValRev i.natAbs).reverse, d < 10 := by
      intro d hd
      exact natDigitsValRev_lt _ d (List.mem_reverse.mp hd)
    rw [dropWhile_not_whitespace (by intro c hc; simp at hc; subst hc; decide)]
    dsimp only
    rw [if_pos rfl, if_pos (Or.inl rfl)]
    rw [takeDigits_map_ofNat hvals]
    rw [if_neg (by
      intro hc
      exact natDigitsValRev_ne_nil hpos (by
        have := congrArg List.reverse hc
        simpa using this))]
    rw [foldl_digits_reverse _ 0]
    congr 1
    simp only [Nat.zero_mul, Nat.zero_add]
    omega
  · rw [if_neg hneg]
    by_cases h0 : i.toNat = 0
    · rw [h0]
      have : i = 0 := by omega
      subst this
      rfl
    · rw [parseInt_natToString (by omega)]
      congr 1
      omega

theorem intToString_ne_empty (i : Int) : intToString i ≠ "" := by
  unfold intToString
  by_cases hneg : i < 0
  · rw [if_pos hneg]
    intro h
    have := congrArg String.data h
    simp [String.data_append] at this
  · rw [if_neg hneg]
    unfold natToString
    by_cases h0 : i.toNat = 0
    · rw [if_pos h0]
      decide
    · rw [if_neg h0]
      intro h
      have := congrArg String.data h
      have hne : natDigitsRev i.toNat ≠ [] := by
        rw [natDigitsRev_eq_map]
        simp only [ne_eq, List.map_eq_nil_iff]
        exact natDigitsValRev_ne_nil (by omega)
      simp at this
      exact hne this

/-! ## Termination and shape of the ancestor walk -/

theorem childStack_cons_inv {env : Env} {x y : Int} {rest : List Int}
    (h : ChildStack env (x :: y :: rest)) :
    ChildEdge env y x ∧ ChildStack env (y :: rest) := by
  cases h with
  | cons c p rest hedge hstack => exact ⟨hedge, hstack⟩

theorem childStack_snoc {env : Env} {a b : Int} :
    ∀ {l : List Int}, ChildStack env (l ++ [a]) → ChildEdge env b a →
      ChildStack env (l ++ [a, b]) := by
  intro l
  induction l with
  | nil =>
    intro _ hedge
    exact ChildStack.cons a b [] hedge (ChildStack.single b)
  | cons x xs ih =>
    intro h hedge
    cases hxs : xs ++ [a] with
    | nil => exact absurd hxs (by simp)
    | cons y rest =>
      rw [List.cons_append, hxs] at h
      rcases childStack_cons_inv h with ⟨hyx, hstack⟩
      have hstack' : ChildStack env (xs ++ [a, b]) := by
        refine ih ?_ hedge
        rw [hxs]
        exact hstack
      have hshape : xs ++ [a, b] = y :: (rest ++ [b]) := by
        have : xs ++ [a, b] = (xs ++ [a]) ++ [b] := by simp
        rw [this, hxs]
        rfl
      rw [List.cons_append, hshape]
      refine ChildStack.cons x y (rest ++ [b]) hyx ?_
      rw [← hshape]
      exact hstack'

theorem ancestorWalk_isSome_aux (env : Env) (hacyc : Acyclic env) :
    ∀ (fuel : Nat) (o : Org) (seen : List Int),
      o ∈ env.orgs →
      ChildStack env (seen ++ [o.id]) →
      (∀ x ∈ seen, x ∈ idList env) →
      (idList env).dedup.length ≤ fuel + seen.length →
      (ancestorWalk env (fuel + 1) o).isSome := by
  intro fuel
  induction fuel using Nat.strong_induction_on with
  | _ fuel ih =>
    intro o seen ho hstack hseen hfuel
    unfold ancestorWalk
    cases hp : o.parentId with
    | none => simp
    | some p =>
      dsimp only
      by_cases hp0 : p = 0
      · rw [if_pos hp0]; simp
      · rw [if_neg hp0]
        cases hlook : orgById env p with
        | none => simp
        | some parent =>
          rw [Option.isSome_map']
          rcases orgById_mem hlook with ⟨hparmem, hparid⟩
          have hedge : ChildEdge env parent.id o.id := by
            rw [hparid]
            exact ⟨o, ho, hp, rfl⟩
          have hstack' : ChildStack env (seen ++ [o.id, parent.id]) :=
            childStack_snoc hstack hedge
          have hnodup : (seen ++ [o.id, parent.id]).Nodup := hacyc _ hstack'
          have hsub : ∀ x ∈ seen ++ [o.id, parent.id], x ∈ idList env := by
            intro x hx
            rcases List.mem_append.mp hx with hx | hx
            · exact hseen x hx
            · rcases List.mem_cons.mp hx with rfl | hx
              · exact List.mem_map.mpr ⟨o, ho, rfl⟩
              · rcases List.mem_cons.mp hx with rfl | hx
                · exact List.mem_map.mpr ⟨parent, hparmem, rfl⟩
                · cases hx
          have hlen : seen.length + 2 ≤ (idList env).dedup.length := by
            have := nodup_length_le hnodup hsub
            simpa using this
          obtain ⟨fuel', rfl⟩ : ∃ f', fuel = f' + 1 :=
            ⟨fuel - 1, by omega⟩
          refine ih fuel' (by omega) parent (seen ++ [o.id]) hparmem ?_ ?_ ?_
          · have : (seen ++ [o.id]) ++ [parent.id] =
                seen ++ [o.id, parent.id] := by simp
            rw [this]
            exact hstack'
          · intro x hx
            exact hsub x (by
              rcases List.mem_append.mp hx with hx | hx
              · exact List.mem_append_left _ hx
              · rcases List.mem_singleton.mp hx with rfl
                simp)
          · simp
            omega

theorem ancestorWalk_isSome (env : Env) (hacyc : Acyclic env) {o : Org}
    (ho : o ∈ env.orgs) : (ancestorWalk env (stdFuel env) o).isSome := by
  unfold stdFuel
  refine ancestorWalk_isSome_aux env hacyc env.orgs.length o [] ho
    (ChildStack.single o.id) (by simp) ?_
  simpa using dedup_idList_le env

theorem ancestorWalk_shape (env : Env) :
    ∀ (fuel : Nat) (o : Org) (chain : List Org),
      ancestorWalk env fuel o = some chain →
      chain = chain.dropLast ++ [o] := by
  intro fuel
  induction fuel with
  | zero => intro o chain h; cases h
  | succ fuel ih =>
    intro o chain h
    unfold ancestorWalk at h
    cases hp : o.parentId with
    | none =>
      rw [hp] at h
      cases h
      rfl
    | some p =>
      rw [hp] at h
      dsimp only at h
      by_cases hp0 : p = 0
      · rw [if_pos hp0] at h
        cases h
        rfl
      · rw [if_neg hp0] at h
        cases hlook : orgById env p with
        | none => rw [hlook] at h; cases h; rfl
        | some parent =>
          rw [hlook] at h
          dsimp only at h
          cases hwalk : ancestorWalk env fuel parent with
          | none => rw [hwalk] at h; cases h
          | some prev =>
            rw [hwalk] at h
            cases h
            rw [List.dropLast_concat]

/-! ## Claim theorem: URL round trip -/

/-- **C4.** Serializing a navigation state whose selected path ends in an
organization `A` present in the entity map with a type in the level
enumeration, then deserializing (from any state current at restore time),
yields the ancestor chain of `A` — `A` preceded by its proper ancestors in
root-to-`A` order, nation-typed entries excluded — as the selected path,
and the level index one past `A`'s position in the level enumeration. -/
theorem c4_url_roundtrip (env : Env) (hacyc : Acyclic env)
    (s s₀ : NavState) (A : Org)
    (hlast : s.selectedPath.getLast? = some A)
    (hA : orgById env A.id = some A)
    (htype : A.orgType ∈ levelOrder) :
    ∃ chain, ancestorWalk env (stdFuel env) A = some chain ∧
      chain = chain.dropLast ++ [A] ∧
      restoreStateFromUrl env (stdFuel env) (updateUrlState s) s₀ =
        some ⟨JsNum.num (jsIndexOf levelOrder A.orgType + 1),
          chain.dropLast.filter (fun o => o.orgType ≠ OrgType.nation)
            ++ [A]⟩ := by
  have hAmem : A ∈ env.orgs := (orgById_mem hA).1
  rcases Option.isSome_iff_exists.mp (ancestorWalk_isSome env hacyc hAmem)
    with ⟨chain, hchain⟩
  have hshape := ancestorWalk_shape env _ _ _ hchain
  refine ⟨chain, hchain, hshape, ?_⟩
  have hser : updateUrlState s =
      ⟨some (intToString A.id), none⟩ := by
    unfold updateUrlState
    rw [hlast]
  rw [hser]
  unfold restoreStateFromUrl
  dsimp only
  rw [if_neg (intToString_ne_empty A.id), parseInt_intToString]
  have hlookup : orgByJsNum env (JsNum.num A.id) = some A := hA
  rw [hlookup]
  dsimp only
  rw [hchain]
  have hAnotnation : A.orgType ≠ OrgType.nation := by
    intro hAn
    rw [hAn] at htype
    simp [levelOrder] at htype
  have hidx : jsIndexOf levelOrder A.orgType ≠ -1 := by
    have h4 : A.orgType = OrgType.sector ∨ A.orgType = OrgType.area ∨
        A.orgType = OrgType.region ∨ A.orgType = OrgType.ao := by
      simpa [levelOrder] using htype
    rcases h4 with h | h | h | h <;> rw [h] <;> decide
  simp only [Option.map_some', Option.some.injEq]
  rw [if_pos hidx]
  have hfilter : chain.filter (fun o => o.orgType ≠ OrgType.nation) =
      chain.dropLast.filter (fun o => o.orgType ≠ OrgType.nation)
        ++ [A] := by
    conv_lhs => rw [hshape]
    rw [List.filter_append]
    congr 1
    simp [hAnotnation]
  rw [hfilter]

theorem c4_url_roundtrip_witness :
    ∃ chain,
      ancestorWalk wEnvChain (stdFuel wEnvChain)
          (⟨3, some 2, "Carolinas", OrgType.area⟩ : Org) = some chain ∧
      chain = chain.dropLast ++ [⟨3, some 2, "Carolinas", OrgType.area⟩] ∧
      restoreStateFromUrl wEnvChain (stdFuel wEnvChain)
          (updateUrlState ⟨JsNum.num 2,
            [⟨2, some 1, "South", OrgType.sector⟩,
             ⟨3, some 2, "Carolinas", OrgType.area⟩]⟩) defaultNav =
        some ⟨JsNum.num
            (jsIndexOf levelOrder
              (⟨3, some 2, "Carolinas", OrgType.area⟩ : Org).orgType + 1),
          chain.dropLast.filter (fun o => o.orgType ≠ OrgType.nation)
            ++ [⟨3, some 2, "Carolinas", OrgType.area⟩]⟩ :=
  c4_url_roundtrip wEnvChain wEnvChain_acyclic _ defaultNav
    ⟨3, some 2, "Carolinas", OrgType.area⟩ rfl rfl (by decide)

/-! ## Claim theorems: circle-buffer fallback -/

theorem createCircleBuffer_dist (c : Point ℝ) (r : ℝ) (n : Nat)
    (hr : 0 ≤ r) :
    ∀ pt ∈ createCircleBuffer c r n,
      Real.sqrt ((pt.lat - c.lat) ^ 2 + (pt.lng - c.lng) ^ 2) = r := by
  intro pt hpt
  unfold createCircleBuffer at hpt
  rcases List.mem_map.mp hpt with ⟨i, _, rfl⟩
  dsimp only
  have hsq : (c.lat + r * Real.cos ((i : ℝ) / (n : ℝ) * (2 * Real.pi)) -
        c.lat) ^ 2 +
      (c.lng + r * Real.sin ((i : ℝ) / (n : ℝ) * (2 * Real.pi)) -
        c.lng) ^ 2 = r ^ 2 := by
    have hpyth :=
      Real.sin_sq_add_cos_sq ((i : ℝ) / (n : ℝ) * (2 * Real.pi))
    nlinarith [hpyth]
  rw [hsq, Real.sqrt_sq hr]

/-- **C9.** The circle-buffer fallback emits exactly `n` points.  For one
input point the circle is centered at that point and every emitted point is
at exactly the configured radius from it; for two input points the center
is their arithmetic midpoint and every emitted point is at the same radius
from that midpoint.  The `i`-th point sits at angle `2π·i/n`, the angles
start at 0 and strictly increase with the index. -/
theorem c9_circle_buffer (center : Point ℝ) (r : ℝ) (n : Nat) (hr : 0 ≤ r)
    (p q : Point ℚ) :
    (createCircleBuffer center r n).length = n ∧
    (∀ pt ∈ createCircleBuffer (fallbackCenter p []) r n,
      Real.sqrt ((pt.lat - (p.lat : ℝ)) ^ 2 + (pt.lng - (p.lng : ℝ)) ^ 2) =
        r) ∧
    (∀ pt ∈ createCircleBuffer (fallbackCenter p [q]) r n,
      Real.sqrt ((pt.lat - ((p.lat : ℝ) + (q.lat : ℝ)) / 2) ^ 2 +
        (pt.lng - ((p.lng : ℝ) + (q.lng : ℝ)) / 2) ^ 2) = r) ∧
    (∀ i, i < n → (createCircleBuffer center r n)[i]? =
      some ⟨center.lat + r * Real.cos ((i : ℝ) / (n : ℝ) * (2 * Real.pi)),
            center.lng + r * Real.sin ((i : ℝ) / (n : ℝ) * (2 * Real.pi))⟩) ∧
    ((0 : ℝ) / (n : ℝ) * (2 * Real.pi) = 0) ∧
    (∀ i j : Nat, i < j → j < n →
      (i : ℝ) / (n : ℝ) * (2 * Real.pi) <
        (j : ℝ) / (n : ℝ) * (2 * Real.pi)) := by
  refine ⟨?_, ?_, ?_, ?_, ?_, ?_⟩
  · unfold createCircleBuffer
    rw [List.length_map, List.length_range]
  · exact createCircleBuffer_dist (fallbackCenter p []) r n hr
  · exact createCircleBuffer_dist (fallbackCenter p [q]) r n hr
  · intro i hi
    unfold createCircleBuffer
    rw [List.getElem?_map, List.getElem?_range hi]
    rfl
  · simp
  · intro i j hij hj
    have hn : (0 : ℝ) < (n : ℝ) := by
      have : 0 < n := by omega
      exact_mod_cast this
    have hdiv : (i : ℝ) / (n : ℝ) < (j : ℝ) / (n : ℝ) := by
      apply div_lt_div_of_pos_right ?_ hn
      exact_mod_cast hij
    exact mul_lt_mul_of_pos_right hdiv (by positivity)

theorem c9_circle_buffer_witness :
    ((createCircleBuffer ⟨20, -40⟩ 0.15 8).length = 8 ∧
    (∀ pt ∈ createCircleBuffer (fallbackCenter ⟨1, 2⟩ []) 0.15 8,
      Real.sqrt ((pt.lat - ((1 : ℚ) : ℝ)) ^ 2 +
        (pt.lng - ((2 : ℚ) : ℝ)) ^ 2) = 0.15) ∧
    (∀ pt ∈ createCircleBuffer
        (fallbackCenter ⟨1, 2⟩ [⟨3, 4⟩]) 0.15 8,
      Real.sqrt ((pt.lat - (((1 : ℚ) : ℝ) + ((3 : ℚ) : ℝ)) / 2) ^ 2 +
        (pt.lng - (((2 : ℚ) : ℝ) + ((4 : ℚ) : ℝ)) / 2) ^ 2) = 0.15) ∧
    (∀ i, i < 8 → (createCircleBuffer ⟨20, -40⟩ 0.15 8)[i]? =
      some ⟨(20 : ℝ) + 0.15 * Real.cos ((i : ℝ) / (8 : ℝ) * (2 * Real.pi)),
            (-40 : ℝ) + 0.15 * Real.sin ((i : ℝ) / (8 : ℝ) * (2 * Real.pi))⟩) ∧
    ((0 : ℝ) / (8 : ℝ) * (2 * Real.pi) = 0) ∧
    (∀ i j : Nat, i < j → j < 8 →
      (i : ℝ) / (8 : ℝ) * (2 * Real.pi) <
        (j : ℝ) / (8 : ℝ) * (2 * Real.pi))) :=
  c9_circle_buffer ⟨20, -40⟩ 0.15 8 (by norm_num) ⟨1, 2⟩ ⟨3, 4⟩

/-! ## Claim theorems: boundary resolver -/

/-- **C5.** The boundary resolver decides in this order: an international
override (sector literally named "international" or area literally named
"general international area", after trim and lowercasing) returns the
decorative star at the fixed Atlantic anchor regardless of the point data
(for every fuel, including zero, so the point aggregator is never
consulted); otherwise, 0 points yield no shape, 1 or 2 points yield the
circle-buffer fallback centered at the point or at the two points'
midpoint, and 3 or more points yield the hull unless it degenerates below 3
vertices, in which case no shape. -/
theorem c5_resolver_decision (env : Env) (org : Org) :
    ((isSectorInternational org || isGeneralInternationalArea org) = true →
      ∀ fuel, resolveBoundary env fuel org =
        some (some (Shape.star (createStarPolygon atlanticCenter 8 5)))) ∧
    ((isSectorInternational org || isGeneralInternationalArea org) = false →
      ∀ fuel pts, getOrgPoints env fuel org = some pts →
        (pts = [] → resolveBoundary env fuel org = some none) ∧
        (∀ p, pts = [p] → resolveBoundary env fuel org =
          some (some (Shape.circle
            (createCircleBuffer (fallbackCenter p []) 0.15 8)))) ∧
        (∀ p q, pts = [p, q] → resolveBoundary env fuel org =
          some (some (Shape.circle
            (createCircleBuffer (fallbackCenter p [q]) 0.15 8)))) ∧
        (3 ≤ pts.length → (convexHull pts).length < 3 →
          resolveBoundary env fuel org = some none) ∧
        (3 ≤ pts.length → 3 ≤ (convexHull pts).length →
          resolveBoundary env fuel org =
            some (some (Shape.hull (convexHull pts))))) := by
  constructor
  · intro hstar fuel
    unfold resolveBoundary
    rw [if_pos hstar]
  · intro hstar fuel pts hpts
    have hbase : resolveBoundary env fuel org =
        (getOrgPoints env fuel org).map (fun points =>
          match points with
          | [] => none
          | p :: rest =>
            if points.length < 3 then
              some (Shape.circle
                (createCircleBuffer (fallbackCenter p rest) 0.15 8))
            else
              if (convexHull points).length < 3 then none
              else some (Shape.hull (convexHull points))) := by
      unfold resolveBoundary
      rw [if_neg (by rw [hstar]; intro h; cases h)]
    rw [hbase, hpts]
    refine ⟨?_, ?_, ?_, ?_, ?_⟩
    · rintro rfl; rfl
    · rintro p rfl; rfl
    · rintro p q rfl; rfl
    · intro hlen hhull
      cases pts with
      | nil => simp at hlen
      | cons p rest =>
        simp only [Option.map_some']
        rw [if_neg (by omega)]
        rw [if_pos hhull]
    · intro hlen hhull
      cases pts with
      | nil => simp at hlen
      | cons p rest =>
        simp only [Option.map_some']
        rw [if_neg (by omega)]
        rw [if_neg (by omega)]

theorem c5_resolver_decision_witness :
    (((isSectorInternational ⟨7, some 1, " International ",
        OrgType.sector⟩ ||
      isGeneralInternationalArea ⟨7, some 1, " International ",
        OrgType.sector⟩) = true →
      ∀ fuel, resolveBoundary wEnvChain fuel
          ⟨7, some 1, " International ", OrgType.sector⟩ =
        some (some (Shape.star (createStarPolygon atlanticCenter 8 5)))) ∧
    ((isSectorInternational ⟨7, some 1, " International ",
        OrgType.sector⟩ ||
      isGeneralInternationalArea ⟨7, some 1, " International ",
        OrgType.sector⟩) = false →
      ∀ fuel pts, getOrgPoints wEnvChain fuel
          ⟨7, some 1, " International ", OrgType.sector⟩ = some pts →
        (pts = [] → resolveBoundary wEnvChain fuel
          ⟨7, some 1, " International ", OrgType.sector⟩ = some none) ∧
        (∀ p, pts = [p] → resolveBoundary wEnvChain fuel
            ⟨7, some 1, " International ", OrgType.sector⟩ =
          some (some (Shape.circle
            (createCircleBuffer (fallbackCenter p []) 0.15 8)))) ∧
        (∀ p q, pts = [p, q] → resolveBoundary wEnvChain fuel
            ⟨7, some 1, " International ", OrgType.sector⟩ =
          some (some (Shape.circle
            (createCircleBuffer (fallbackCenter p [q]) 0.15 8)))) ∧
        (3 ≤ pts.length → (convexHull pts).length < 3 →
          resolveBoundary wEnvChain fuel
            ⟨7, some 1, " International ", OrgType.sector⟩ = some none) ∧
        (3 ≤ pts.length → 3 ≤ (convexHull pts).length →
          resolveBoundary wEnvChain fuel
            ⟨7, some 1, " International ", OrgType.sector⟩ =
            some (some (Shape.hull (convexHull pts)))))) ∧
    (isSectorInternational ⟨7, some 1, " International ",
      OrgType.sector⟩ ||
     isGeneralInternationalArea ⟨7, some 1, " International ",
      OrgType.sector⟩) = true :=
  ⟨c5_resolver_decision wEnvChain
    ⟨7, some 1, " International ", OrgType.sector⟩, by decide⟩

/-! ## Claim theorems: hull on small and collinear inputs -/

theorem collinear_foldl {S : List (Point ℚ)}
    (hcol : ∀ a ∈ S, ∀ b ∈ S, ∀ c ∈ S, cross a b c = 0) :
    ∀ (t : List (Point ℚ)) (cur s0 : Point ℚ),
      (∀ x ∈ t, x ∈ S) → cur ∈ S → s0 ∈ S →
      t.foldl (fun chain p => p :: popWhile p chain) [cur, s0] =
        [t.getLastD cur, s0] := by
  intro t
  induction t with
  | nil => intro cur s0 _ _ _; rfl
  | cons z t ih =>
    intro cur s0 ht hcur hs0
    rw [List.foldl_cons]
    have hz : z ∈ S := ht z (by simp)
    have hpop : popWhile z [cur, s0] = [s0] := by
      unfold popWhile
      rw [if_pos (le_of_eq (hcol s0 hs0 cur hcur z hz))]
      rfl
    rw [hpop, List.getLastD_cons]
    exact ih z s0 (fun x hx => ht x (List.mem_cons_of_mem _ hx)) hz hs0

theorem buildChain_collinear {S : List (Point ℚ)}
    (hcol : ∀ a ∈ S, ∀ b ∈ S, ∀ c ∈ S, cross a b c = 0)
    (hlen : 2 ≤ S.length) :
    (buildChain S).length = 2 := by
  obtain ⟨s0, z, t, rfl⟩ : ∃ s0 z t, S = s0 :: z :: t := by
    cases S with
    | nil => simp at hlen
    | cons s0 rest =>
      cases rest with
      | nil => simp at hlen
      | cons z t => exact ⟨s0, z, t, rfl⟩
  unfold buildChain
  rw [List.foldl_cons, List.foldl_cons]
  have hstep : (z :: popWhile z (s0 :: popWhile s0 [])) = [z, s0] := rfl
  rw [hstep]
  rw [collinear_foldl hcol t z s0
    (fun x hx => by simp [hx]) (by simp) (by simp)]
  rfl

theorem convexHull_of_big {pts : List (Point ℚ)} (h : ¬ pts.length ≤ 1) :
    convexHull pts =
      (buildChain (pts.mergeSort lexLe)).dropLast ++
        (buildChain (pts.mergeSort lexLe).reverse).dropLast := by
  unfold convexHull
  rw [if_neg h]

theorem mergeSort_pair (p q : Point ℚ) :
    [p, q].mergeSort lexLe = if lexLe p q then [p, q] else [q, p] := by
  rw [List.mergeSort]
  simp [List.mergeSort, List.merge, List.splitInTwo]

theorem convexHull_pair (p q : Point ℚ) :
    convexHull [p, q] = if lexLe p q then [p, q] else [q, p] := by
  rw [convexHull_of_big (by simp), mergeSort_pair]
  by_cases hle : lexLe p q
  · rw [if_pos hle]
    rfl
  · rw [if_neg hle]
    rfl

/-- **C6, counterexample.** `convexHull` applied to the two distinct points
`(lat 0, lng 1)`, `(lat 0, lng 0)` returns them sorted by longitude — not
in the input order, so "returns the input list unchanged" fails for two
points. -/
theorem c6_counterexample :
    convexHull [⟨0, 1⟩, ⟨0, 0⟩] = [⟨0, 0⟩, ⟨0, 1⟩] ∧
    ([⟨0, 0⟩, ⟨0, 1⟩] : List (Point ℚ)) ≠ [⟨0, 1⟩, ⟨0, 0⟩] := by
  constructor
  · rw [convexHull_pair]
    decide
  · decide

/-- **C6, amended.** `convexHull` returns inputs of at most one point
unchanged; for exactly two points it returns the same two points sorted by
longitude then latitude (so an unsorted pair is reordered, not returned
unchanged); and for 3 or more pairwise-distinct collinear points it returns
fewer than 3 vertices. -/
theorem c6_hull_small_inputs (pts : List (Point ℚ)) (p q : Point ℚ) :
    (pts.length ≤ 1 → convexHull pts = pts) ∧
    (convexHull [p, q] = if lexLe p q then [p, q] else [q, p]) ∧
    (pts.Nodup → 3 ≤ pts.length →
      (∀ a ∈ pts, ∀ b ∈ pts, ∀ c ∈ pts, cross a b c = 0) →
      (convexHull pts).length < 3) := by
  refine ⟨?_, ?_, ?_⟩
  · intro hlen
    unfold convexHull
    rw [if_pos hlen]
  · exact convexHull_pair p q
  · intro _ hlen hcol
    rw [convexHull_of_big (by omega)]
    have hsortmem : ∀ x ∈ pts.mergeSort lexLe, x ∈ pts := by
      intro x hx
      exact List.mem_mergeSort.mp hx
    have hcolsort : ∀ a ∈ pts.mergeSort lexLe, ∀ b ∈ pts.mergeSort lexLe,
        ∀ c ∈ pts.mergeSort lexLe, cross a b c = 0 :=
      fun a ha b hb c hc =>
        hcol a (hsortmem a ha) b (hsortmem b hb) c (hsortmem c hc)
    have hlensort : (pts.mergeSort lexLe).length = pts.length :=
      List.length_mergeSort ..
    have hlow : (buildChain (pts.mergeSort lexLe)).length = 2 :=
      buildChain_collinear hcolsort (by omega)
    have hup : (buildChain (pts.mergeSort lexLe).reverse).length = 2 := by
      refine buildChain_collinear ?_ (by simp; omega)
      intro a ha b hb c hc
      exact hcolsort a (List.mem_reverse.mp ha) b (List.mem_reverse.mp hb)
        c (List.mem_reverse.mp hc)
    rw [List.length_append, List.length_dropLast, List.length_dropLast,
      hlow, hup]
    omega

theorem c6_hull_small_inputs_witness :
    convexHull [⟨0, 1⟩] = [(⟨0, 1⟩ : Point ℚ)] ∧
    (convexHull [(⟨0, 0⟩ : Point ℚ), ⟨0, 2⟩]).length < 3 ∧
    (convexHull [(⟨0, 0⟩ : Point ℚ), ⟨0, 1⟩, ⟨0, 2⟩]).length < 3 := by
  refine ⟨?_, ?_, ?_⟩
  · exact (c6_hull_small_inputs [⟨0, 1⟩] ⟨0, 0⟩ ⟨0, 2⟩).1 (by decide)
  · rw [(c6_hull_small_inputs [] ⟨0, 0⟩ ⟨0, 2⟩).2.1]
    have hle : lexLe (⟨0, 0⟩ : Point ℚ) ⟨0, 2⟩ = true := by decide
    simp [hle]
  · exact (c6_hull_small_inputs [⟨0, 0⟩, ⟨0, 1⟩, ⟨0, 2⟩] ⟨0, 0⟩ ⟨0, 2⟩).2.2
      (by decide) (by decide)
      (by
        intro a ha b hb c hc
        fin_cases ha <;> fin_cases hb <;> fin_cases hc <;> norm_num [cross])


/-! ### C1: `convexHull` on points in convex position -/

/-- Strict lexicographic order on points: ascending longitude, ties broken
by ascending latitude (the strict counterpart of the sort comparator). -/
def lexLt (p q : Point ℚ) : Prop :=
  p.lng < q.lng ∨ (p.lng = q.lng ∧ p.lat < q.lat)

/-- No three pairwise-distinct members of the list are collinear. -/
def NoColl (pts : List (Point ℚ)) : Prop :=
  ∀ a ∈ pts, ∀ b ∈ pts, ∀ c ∈ pts, a ≠ b → a ≠ c → b ≠ c → cross a b c ≠ 0

/-- `p` lies strictly inside the triangle `a b c`: the three edge cross
products carry the same strict sign. -/
def InTri (a b c p : Point ℚ) : Prop :=
  (0 < cross a b p ∧ 0 < cross b c p ∧ 0 < cross c a p) ∨
  (cross a b p < 0 ∧ cross b c p < 0 ∧ cross c a p < 0)

/-- No member of the list lies strictly inside a triangle of members. -/
def NoInside (pts : List (Point ℚ)) : Prop :=
  ∀ a ∈ pts, ∀ b ∈ pts, ∀ c ∈ pts, ∀ p ∈ pts, ¬ InTri a b c p

/-- Convex position: pairwise-distinct points, no three collinear, and
every point a vertex of the common hull (no member strictly inside a
triangle of members). -/
def ConvexPos (pts : List (Point ℚ)) : Prop :=
  pts.Nodup ∧ NoColl pts ∧ NoInside pts

/-- The reversed working stack of one chain build of `buildChain`
(head = most recently pushed point). -/
def chainRev (pts : List (Point ℚ)) : List (Point ℚ) :=
  pts.foldl (fun chain p => p :: popWhile p chain) []

/-- Every three consecutive points of the list make a strict
counterclockwise turn. -/
inductive CCWChain : List (Point ℚ) → Prop where
  | nil : CCWChain []
  | single (a : Point ℚ) : CCWChain [a]
  | pair (a b : Point ℚ) : CCWChain [a, b]
  | cons (a b c : Point ℚ) (rest : List (Point ℚ)) (h : 0 < cross a b c)
      (ht : CCWChain (b :: c :: rest)) : CCWChain (a :: b :: c :: rest)

/-- Every three cyclically-consecutive vertices of `H` make a strict
counterclockwise turn: a single consistent rotational sense. -/
def CCWCyclic (H : List (Point ℚ)) : Prop :=
  CCWChain (H ++ H.take 2)

/-- The invariant of the reversed stack during a chain build: any three
consecutive stack entries turn counterclockwise when read bottom-up. -/
inductive LeftTurns : List (Point ℚ) → Prop where
  | nil : LeftTurns []
  | single (a : Point ℚ) : LeftTurns [a]
  | pair (a b : Point ℚ) : LeftTurns [a, b]
  | cons (c b a : Point ℚ) (rest : List (Point ℚ)) (h : 0 < cross a b c)
      (ht : LeftTurns (b :: a :: rest)) : LeftTurns (c :: b :: a :: rest)

/-- Reflection through the origin: an involution preserving the cross
product and reversing the lexicographic order. -/
def negP (p : Point ℚ) : Point ℚ :=
  ⟨-p.lat, -p.lng⟩

theorem lexLt_trans {a b c : Point ℚ} (h₁ : lexLt a b) (h₂ : lexLt b c) :
    lexLt a c := by
  rcases h₁ with h₁ | ⟨e₁, l₁⟩ <;> rcases h₂ with h₂ | ⟨e₂, l₂⟩
  · exact Or.inl (lt_trans h₁ h₂)
  · exact Or.inl (by rw [← e₂]; exact h₁)
  · exact Or.inl (by rw [e₁]; exact h₂)
  · exact Or.inr ⟨e₁.trans e₂, lt_trans l₁ l₂⟩

theorem lexLt_irrefl (a : Point ℚ) : ¬ lexLt a a := by
  rintro (h | ⟨_, h⟩) <;> exact lt_irrefl _ h

theorem lexLt_ne {a b : Point ℚ} (h : lexLt a b) : a ≠ b := by
  rintro rfl
  exact lexLt_irrefl a h

theorem lexLt_lng_le {a b : Point ℚ} (h : lexLt a b) : a.lng ≤ b.lng := by
  rcases h with h | ⟨e, _⟩
  · exact le_of_lt h
  · exact le_of_eq e

theorem lexLt_lat_of_lng_eq {a b : Point ℚ} (h : lexLt a b)
    (he : a.lng = b.lng) : a.lat < b.lat := by
  rcases h with h | ⟨_, h⟩
  · exact absurd he (ne_of_lt h)
  · exact h

theorem lexLt_of_lexLe_ne {a b : Point ℚ} (h : lexLe a b = true)
    (hne : a ≠ b) : lexLt a b := by
  simp only [lexLe, decide_eq_true_eq] at h
  rcases h with h | ⟨e, l⟩
  · exact Or.inl h
  · refine Or.inr ⟨e, lt_of_le_of_ne l ?_⟩
    intro hlat
    apply hne
    cases a
    cases b
    simp only [Point.mk.injEq]
    exact ⟨hlat, e⟩

theorem lexLe_trans_bool (a b c : Point ℚ) (h₁ : lexLe a b) (h₂ : lexLe b c) :
    lexLe a c := by
  simp only [lexLe, decide_eq_true_eq] at h₁ h₂ ⊢
  rcases h₁ with h₁ | ⟨e₁, l₁⟩ <;> rcases h₂ with h₂ | ⟨e₂, l₂⟩
  · exact Or.inl (lt_trans h₁ h₂)
  · exact Or.inl (by rw [← e₂]; exact h₁)
  · exact Or.inl (by rw [e₁]; exact h₂)
  · exact Or.inr ⟨e₁.trans e₂, le_trans l₁ l₂⟩

theorem lexLe_total_bool (a b : Point ℚ) : lexLe a b || lexLe b a := by
  simp only [lexLe, Bool.or_eq_true, decide_eq_true_eq]
  rcases lt_trichotomy a.lng b.lng with h | h | h
  · exact Or.inl (Or.inl h)
  · rcases le_total a.lat b.lat with hl | hl
    · exact Or.inl (Or.inr ⟨h, hl⟩)
    · exact Or.inr (Or.inr ⟨h.symm, hl⟩)
  · exact Or.inr (Or.inl h)

theorem cross_swap (o a b : Point ℚ) : cross o b a = - cross o a b := by
  unfold cross
  ring

theorem cross_swap01 (o a b : Point ℚ) : cross a o b = - cross o a b := by
  unfold cross
  ring

theorem cross_cyc (o a b : Point ℚ) : cross a b o = cross o a b := by
  unfold cross
  ring

theorem fanTrans {o a b c : Point ℚ}
    (hax : o.lng ≤ a.lng) (hay : o.lng = a.lng → o.lat < a.lat)
    (hbx : o.lng ≤ b.lng) (hby : o.lng = b.lng → o.lat < b.lat)
    (hcx : o.lng ≤ c.lng)
    (h₁ : 0 < cross o a b) (h₂ : 0 < cross o b c) : 0 < cross o a c := by
  have key : (b.lng - o.lng) * cross o a c
      = (c.lng - o.lng) * cross o a b + (a.lng - o.lng) * cross o b c := by
    unfold cross
    ring
  rcases lt_or_eq_of_le hbx with hb | hb
  · rcases lt_or_eq_of_le hax with haxx | haxx
    · by_contra hcon
      push_neg at hcon
      have t1 : 0 ≤ (c.lng - o.lng) * cross o a b :=
        mul_nonneg (by linarith) (le_of_lt h₁)
      have t2 : 0 < (a.lng - o.lng) * cross o b c :=
        mul_pos (by linarith) h₂
      have hle : (b.lng - o.lng) * cross o a c ≤ 0 :=
        mul_nonpos_iff.mpr (Or.inl ⟨by linarith, hcon⟩)
      linarith
    · exfalso
      have hlat := hay haxx
      have hc : cross o a b = - ((a.lat - o.lat) * (b.lng - o.lng)) := by
        unfold cross
        rw [← haxx]
        ring
      have hprod : 0 ≤ (a.lat - o.lat) * (b.lng - o.lng) :=
        mul_nonneg (by linarith) (by linarith)
      rw [hc] at h₁
      linarith
  · exfalso
    have hlatb := hby hb
    have hc : cross o b c = - ((b.lat - o.lat) * (c.lng - o.lng)) := by
      unfold cross
      rw [← hb]
      ring
    have hprod : 0 ≤ (b.lat - o.lat) * (c.lng - o.lng) :=
      mul_nonneg (by linarith) (by linarith)
    rw [hc] at h₂
    linarith

theorem stays_low {pts : List (Point ℚ)} (hnc : NoColl pts)
    (hni : NoInside pts) {s y z p : Point ℚ}
    (hs : s ∈ pts) (hy : y ∈ pts) (hz : z ∈ pts) (hp : p ∈ pts)
    (h1 : lexLt s p) (h2 : lexLt p y) (h3 : lexLt y z)
    (hlow : cross s y p < 0) : cross s z p < 0 := by
  have hsy := lexLt_trans h1 h2
  have hsz := lexLt_trans hsy h3
  have hpz := lexLt_trans h2 h3
  have hDne : cross s y z ≠ 0 :=
    hnc s hs y hy z hz (lexLt_ne hsy) (lexLt_ne hsz) (lexLt_ne h3)
  rcases lt_or_gt_of_ne hDne with hD | hD
  · by_contra hcon
    push_neg at hcon
    have hne : cross s z p ≠ 0 :=
      hnc s hs z hz p hp (lexLt_ne hsz) (lexLt_ne h1) (Ne.symm (lexLt_ne hpz))
    have hpos : 0 < cross s z p := lt_of_le_of_ne hcon (Ne.symm hne)
    have key : (y.lng - s.lng) * cross y z p
        = (z.lng - y.lng) * cross s y p + (y.lng - p.lng) * cross s y z := by
      unfold cross
      ring
    have hyzp : cross y z p < 0 := by
      have hEne : cross y z p ≠ 0 :=
        hnc y hy z hz p hp (lexLt_ne h3) (Ne.symm (lexLt_ne h2))
          (Ne.symm (lexLt_ne hpz))
      rcases lt_or_gt_of_ne hEne with hE | hE
      · exact hE
      · exfalso
        have t1 : (z.lng - y.lng) * cross s y p ≤ 0 :=
          mul_nonpos_iff.mpr
            (Or.inl ⟨by have := lexLt_lng_le h3; linarith, le_of_lt hlow⟩)
        have t2 : (y.lng - p.lng) * cross s y z ≤ 0 :=
          mul_nonpos_iff.mpr
            (Or.inl ⟨by have := lexLt_lng_le h2; linarith, le_of_lt hD⟩)
        have hys : s.lng ≤ y.lng := lexLt_lng_le hsy
        rcases lt_or_eq_of_le hys with hlt | heq
        · have t0 : 0 < (y.lng - s.lng) * cross y z p :=
            mul_pos (by linarith) hE
          linarith
        · have hsp := lexLt_lng_le h1
          have hpy := lexLt_lng_le h2
          have hcol : cross s y p = 0 := by
            unfold cross
            have e1 : p.lng = s.lng := by linarith
            have e2 : y.lng = s.lng := by linarith
            rw [e1, e2]
            ring
          exact absurd hcol (ne_of_lt hlow)
    have hzs : cross z s p < 0 := by
      rw [cross_swap01 s z p]
      linarith
    exact absurd (Or.inr ⟨hlow, hyzp, hzs⟩) (hni s hs y hy z hz p hp)
  · have h1' : 0 < cross s p y := by
      rw [cross_swap s y p]
      linarith
    have hspz : 0 < cross s p z :=
      fanTrans (lexLt_lng_le h1) (lexLt_lat_of_lng_eq h1)
        (lexLt_lng_le hsy) (lexLt_lat_of_lng_eq hsy)
        (lexLt_lng_le hsz) h1' hD
    rw [cross_swap s p z]
    linarith

theorem newlow_oldlow {pts : List (Point ℚ)} (hnc : NoColl pts)
    (hni : NoInside pts) {s y z p : Point ℚ}
    (hs : s ∈ pts) (hy : y ∈ pts) (hz : z ∈ pts) (hp : p ∈ pts)
    (h1 : lexLt s p) (h2 : lexLt p y) (h3 : lexLt y z)
    (hlowz : cross s z p < 0) : cross s y p < 0 := by
  have hsy := lexLt_trans h1 h2
  have hsz := lexLt_trans hsy h3
  have hpz := lexLt_trans h2 h3
  by_contra hcon
  push_neg at hcon
  have hne : cross s y p ≠ 0 :=
    hnc s hs y hy p hp (lexLt_ne hsy) (lexLt_ne h1) (Ne.symm (lexLt_ne h2))
  have hpos : 0 < cross s y p := lt_of_le_of_ne hcon (Ne.symm hne)
  have hEne : cross y z p ≠ 0 :=
    hnc y hy z hz p hp (lexLt_ne h3) (Ne.symm (lexLt_ne h2))
      (Ne.symm (lexLt_ne hpz))
  have hDne : cross s y z ≠ 0 :=
    hnc s hs y hy z hz (lexLt_ne hsy) (lexLt_ne hsz) (lexLt_ne h3)
  rcases lt_or_gt_of_ne hEne with hE | hE
  · rcases lt_or_gt_of_ne hDne with hD | hD
    · refine absurd (Or.inr ⟨?_, ?_, ?_⟩) (hni p hp y hy z hz s hs)
      · rw [cross_cyc s p y, cross_swap s y p]
        linarith
      · rw [cross_cyc s y z]
        exact hD
      · rw [cross_cyc s z p]
        exact hlowz
    · have key : (y.lng - s.lng) * cross y z p
          = (z.lng - y.lng) * cross s y p + (y.lng - p.lng) * cross s y z := by
        unfold cross
        ring
      have hyl : s.lng ≤ y.lng := lexLt_lng_le hsy
      have hzy : y.lng ≤ z.lng := lexLt_lng_le h3
      have hpy : p.lng ≤ y.lng := lexLt_lng_le h2
      rcases lt_or_eq_of_le hyl with hlt | heq
      · have t1 : 0 ≤ (z.lng - y.lng) * cross s y p :=
          mul_nonneg (by linarith) hcon
        have t2 : 0 ≤ (y.lng - p.lng) * cross s y z :=
          mul_nonneg (by linarith) (le_of_lt hD)
        have t3 : (y.lng - s.lng) * cross y z p < 0 :=
          mul_neg_of_pos_of_neg (by linarith) hE
        linarith
      · have hcol : cross s y p = 0 := by
          unfold cross
          have hsp := lexLt_lng_le h1
          have e1 : y.lng = s.lng := heq.symm
          have e2 : p.lng = s.lng := by linarith
          rw [e1, e2]
          ring
        exact hne hcol
  · refine absurd (Or.inr ⟨hlowz, ?_, ?_⟩) (hni s hs z hz y hy p hp)
    · rw [cross_swap01 y z p]
      linarith
    · rw [cross_swap01 s y p]
      linarith

theorem chain_no_pop {pts : List (Point ℚ)} (hnc : NoColl pts)
    (hni : NoInside pts) {s a b z : Point ℚ}
    (hs : s ∈ pts) (ha : a ∈ pts) (hb : b ∈ pts) (hz : z ∈ pts)
    (hA : a = s ∨ (lexLt s a ∧ cross s z a < 0))
    (hab : lexLt a b) (hbz : lexLt b z)
    (hlowb : cross s z b < 0) : 0 < cross a b z := by
  rcases hA with rfl | ⟨hsa, hlowa⟩
  · rw [show cross a b z = - cross a z b from by rw [cross_swap a z b]]
    linarith
  · have hsb := lexLt_trans hsa hab
    have hsz := lexLt_trans hsb hbz
    have haz := lexLt_trans hab hbz
    by_contra hcon
    push_neg at hcon
    have hne : cross a b z ≠ 0 :=
      hnc a ha b hb z hz (lexLt_ne hab) (lexLt_ne haz) (lexLt_ne hbz)
    have hneg : cross a b z < 0 := lt_of_le_of_ne hcon hne
    have hsabne : cross s a b ≠ 0 :=
      hnc s hs a ha b hb (lexLt_ne hsa) (lexLt_ne hsb) (lexLt_ne hab)
    rcases lt_or_gt_of_ne hsabne with hsab | hsab
    · have key : (s.lng - a.lng) * cross a b z
          = (b.lng - a.lng) * cross a s z - (z.lng - a.lng) * cross a s b := by
        unfold cross
        ring
      have hlsa : s.lng ≤ a.lng := lexLt_lng_le hsa
      have hlab : a.lng ≤ b.lng := lexLt_lng_le hab
      have hlaz : a.lng ≤ z.lng := lexLt_lng_le haz
      have e1' : cross a s z < 0 := by
        have e1 : cross a s z = cross s z a := by
          rw [cross_swap01 s a z, cross_swap s z a]
          ring
        rw [e1]
        exact hlowa
      have e2' : 0 < cross a s b := by
        rw [cross_swap01 s a b]
        linarith
      rcases lt_or_eq_of_le hlsa with hlt | heq
      · have t0 : 0 < (s.lng - a.lng) * cross a b z :=
          mul_pos_of_neg_of_neg (by linarith) hneg
        have t1 : (b.lng - a.lng) * cross a s z ≤ 0 :=
          mul_nonpos_iff.mpr (Or.inl ⟨by linarith, le_of_lt e1'⟩)
        have t2 : 0 ≤ (z.lng - a.lng) * cross a s b :=
          mul_nonneg (by linarith) (le_of_lt e2')
        linarith
      · have t1 : (b.lng - a.lng) * cross a s z ≤ 0 :=
          mul_nonpos_iff.mpr (Or.inl ⟨by linarith, le_of_lt e1'⟩)
        have t2 : 0 ≤ (z.lng - a.lng) * cross a s b :=
          mul_nonneg (by linarith) (le_of_lt e2')
        have hlhs : (s.lng - a.lng) * cross a b z = 0 := by
          rw [heq]
          ring
        have hb0 : (b.lng - a.lng) * cross a s z = 0 := by linarith
        rcases mul_eq_zero.mp hb0 with hba | h0
        · have hcol : cross s a b = 0 := by
            unfold cross
            have e3 : a.lng = s.lng := heq.symm
            have e4 : b.lng = s.lng := by linarith
            rw [e3, e4]
            ring
          exact hsabne hcol
        · exact absurd h0 (ne_of_lt e1')
    · refine absurd (Or.inl ⟨hsab, ?_, ?_⟩) (hni s hs a ha z hz b hb)
      · rw [cross_swap a b z]
        linarith
      · rw [cross_swap01 s z b]
        linarith

theorem pop_boundary {pts : List (Point ℚ)} (hnc : NoColl pts)
    {s a y z : Point ℚ}
    (hs : s ∈ pts) (ha : a ∈ pts) (hy : y ∈ pts) (hz : z ∈ pts)
    (hsa : lexLt s a) (hay : lexLt a y) (hyz : lexLt y z)
    (hlowa : cross s z a < 0) (hhiy : 0 < cross s z y) : cross a y z < 0 := by
  have hsy := lexLt_trans hsa hay
  have hsz := lexLt_trans hsy hyz
  have haz := lexLt_trans hay hyz
  have key : cross z a y * (z.lng - s.lng)
      = cross s z y * (a.lng - z.lng) + cross s z a * (z.lng - y.lng) := by
    unfold cross
    ring
  have hlng1 : a.lng ≤ z.lng := lexLt_lng_le haz
  have hlng2 : y.lng ≤ z.lng := lexLt_lng_le hyz
  have hlng3 : s.lng ≤ z.lng := lexLt_lng_le hsz
  have hcyc : cross z a y = cross a y z := (cross_cyc z a y).symm
  rcases lt_or_eq_of_le hlng3 with hlt | heq
  · have hne : cross a y z ≠ 0 :=
      hnc a ha y hy z hz (lexLt_ne hay) (lexLt_ne haz) (lexLt_ne hyz)
    rcases lt_or_gt_of_ne hne with h | h
    · exact h
    · exfalso
      have t1 : cross s z y * (a.lng - z.lng) ≤ 0 :=
        mul_nonpos_iff.mpr (Or.inl ⟨le_of_lt hhiy, by linarith⟩)
      have t2 : cross s z a * (z.lng - y.lng) ≤ 0 :=
        mul_nonpos_iff.mpr (Or.inr ⟨le_of_lt hlowa, by linarith⟩)
      have t0 : 0 < cross z a y * (z.lng - s.lng) := by
        rw [hcyc]
        exact mul_pos h (by linarith)
      linarith
  · exfalso
    have e1 : y.lng = s.lng := by
      have := lexLt_lng_le hsy
      linarith
    have e2 : z.lng = s.lng := heq.symm
    have hcol : cross s y z = 0 := by
      unfold cross
      rw [e1, e2]
      ring
    exact hnc s hs y hy z hz (lexLt_ne hsy) (lexLt_ne hsz) (lexLt_ne hyz) hcol

theorem popWhile_nil (p : Point ℚ) : popWhile p [] = [] := rfl

theorem popWhile_one (p x : Point ℚ) : popWhile p [x] = [x] := rfl

theorem popWhile_cons2 (p b a : Point ℚ) (rest : List (Point ℚ)) :
    popWhile p (b :: a :: rest) =
      if cross a b p ≤ 0 then popWhile p (a :: rest) else b :: a :: rest := rfl

theorem popWhile_eq_self {p : Point ℚ} :
    ∀ {l : List (Point ℚ)},
      (∀ b a rest, l = b :: a :: rest → 0 < cross a b p) → popWhile p l = l
  | [], _ => rfl
  | [_], _ => rfl
  | b :: a :: rest, h => by
    rw [popWhile_cons2, if_neg (not_le.mpr (h b a rest rfl))]

theorem buildChain_eq_chainRev (pts : List (Point ℚ)) :
    buildChain pts = (chainRev pts).reverse := rfl

theorem chainRev_snoc (P : List (Point ℚ)) (z : Point ℚ) :
    chainRev (P ++ [z]) = z :: popWhile z (chainRev P) := by
  simp [chainRev, List.foldl_append]

theorem leftTurns_tail {x : Point ℚ} {l : List (Point ℚ)}
    (h : LeftTurns (x :: l)) : LeftTurns l := by
  cases h with
  | single _ => exact LeftTurns.nil
  | pair _ b => exact LeftTurns.single b
  | cons _ b a rest _ ht => exact ht

theorem leftTurns_popWhile (p : Point ℚ) :
    ∀ {l : List (Point ℚ)}, LeftTurns l → LeftTurns (popWhile p l)
  | [], h => h
  | [_], h => h
  | b :: a :: rest, h => by
    rw [popWhile_cons2]
    by_cases hc : cross a b p ≤ 0
    · rw [if_pos hc]
      exact leftTurns_popWhile p (leftTurns_tail h)
    · rw [if_neg hc]
      exact h

theorem popWhile_top (p : Point ℚ) :
    ∀ {l : List (Point ℚ)} {b a : Point ℚ} {rest : List (Point ℚ)},
      popWhile p l = b :: a :: rest → 0 < cross a b p
  | [], _, _, _, h => by simp [popWhile_nil] at h
  | [x], _, _, _, h => by simp [popWhile_one] at h
  | b' :: a' :: rest', b, a, rest, h => by
    rw [popWhile_cons2] at h
    by_cases hc : cross a' b' p ≤ 0
    · rw [if_pos hc] at h
      exact popWhile_top p h
    · rw [if_neg hc] at h
      obtain ⟨hb, rest_eq⟩ := List.cons.inj h
      obtain ⟨ha, _⟩ := List.cons.inj rest_eq
      rw [← ha, ← hb]
      exact not_le.mp hc

theorem leftTurns_push (p : Point ℚ) {l : List (Point ℚ)} (h : LeftTurns l) :
    LeftTurns (p :: popWhile p l) := by
  have h' := leftTurns_popWhile p h
  cases hpw : popWhile p l with
  | nil => exact LeftTurns.single p
  | cons b t =>
    cases t with
    | nil => exact LeftTurns.pair p b
    | cons a rest =>
      rw [hpw] at h'
      exact LeftTurns.cons p b a rest (popWhile_top p hpw) h'

theorem leftTurns_foldl :
    ∀ (pts : List (Point ℚ)) {init : List (Point ℚ)}, LeftTurns init →
      LeftTurns (pts.foldl (fun chain p => p :: popWhile p chain) init)
  | [], _, h => h
  | p :: t, init, h => by
    rw [List.foldl_cons]
    exact leftTurns_foldl t (leftTurns_push p h)

theorem leftTurns_chainRev (pts : List (Point ℚ)) : LeftTurns (chainRev pts) :=
  leftTurns_foldl pts LeftTurns.nil

theorem ccwChain_tail {x : Point ℚ} {l : List (Point ℚ)}
    (h : CCWChain (x :: l)) : CCWChain l := by
  cases h with
  | single _ => exact CCWChain.nil
  | pair _ b => exact CCWChain.single b
  | cons _ b c rest _ ht => exact ht

theorem ccwChain_head {a b c : Point ℚ} {rest : List (Point ℚ)}
    (h : CCWChain (a :: b :: c :: rest)) : 0 < cross a b c := by
  cases h with
  | cons _ _ _ _ h _ => exact h

theorem ccw_glue {u v : Point ℚ} {ys : List (Point ℚ)}
    (h₂ : CCWChain (u :: v :: ys)) :
    ∀ xs, CCWChain (xs ++ [u, v]) → CCWChain (xs ++ u :: v :: ys)
  | [], _ => h₂
  | [x], h₁ => CCWChain.cons x u v ys (ccwChain_head h₁) h₂
  | [x, x'], h₁ =>
    CCWChain.cons x x' u (v :: ys) (ccwChain_head h₁)
      (ccw_glue h₂ [x'] (ccwChain_tail h₁))
  | x :: x' :: x'' :: xs, h₁ =>
    CCWChain.cons x x' x'' (xs ++ u :: v :: ys) (ccwChain_head h₁)
      (ccw_glue h₂ (x' :: x'' :: xs) (ccwChain_tail h₁))

theorem ccw_snoc {u v w : Point ℚ} {l : List (Point ℚ)}
    (h : CCWChain (l ++ [u, v])) (hw : 0 < cross u v w) :
    CCWChain (l ++ [u, v, w]) :=
  ccw_glue (CCWChain.cons u v w [] hw (CCWChain.pair v w)) l h

theorem ccwChain_reverse_of_leftTurns {l : List (Point ℚ)}
    (h : LeftTurns l) : CCWChain l.reverse := by
  induction h with
  | nil => exact CCWChain.nil
  | single a => exact CCWChain.single a
  | pair a b => simpa using CCWChain.pair b a
  | cons c b a rest h ht ih =>
    have hsnoc := @ccw_snoc a b c rest.reverse (by simpa using ih) h
    simpa using hsnoc

theorem ccwChain_buildChain (pts : List (Point ℚ)) :
    CCWChain (buildChain pts) := by
  rw [buildChain_eq_chainRev]
  exact ccwChain_reverse_of_leftTurns (leftTurns_chainRev pts)

theorem sorted_middle_facts {s z : Point ℚ} {M : List (Point ℚ)}
    (h : (s :: (M ++ [z])).Pairwise lexLt) :
    (∀ m ∈ M, lexLt s m ∧ lexLt m z) ∧ lexLt s z ∧ M.Pairwise lexLt := by
  rcases List.pairwise_cons.mp h with ⟨hs, hMz⟩
  rcases List.pairwise_append.mp hMz with ⟨hM, _, hcr⟩
  refine ⟨fun m hm => ⟨hs m (by simp [hm]), hcr m hm z (by simp)⟩,
    hs z (by simp), hM⟩

theorem no_pop_stack {pts : List (Point ℚ)} (hnc : NoColl pts)
    (hni : NoInside pts) {s z : Point ℚ} {L : List (Point ℚ)}
    (hs : s ∈ pts) (hz : z ∈ pts)
    (hmem : ∀ x ∈ L,
      x = s ∨ (x ∈ pts ∧ lexLt s x ∧ lexLt x z ∧ cross s z x < 0))
    (hpw : L.Pairwise (fun a b => lexLt b a)) :
    popWhile z L = L := by
  apply popWhile_eq_self
  intro b a rest heq
  have hb := hmem b (by rw [heq]; exact List.mem_cons_self b _)
  have ha := hmem a
    (by rw [heq]; exact List.mem_cons_of_mem b (List.mem_cons_self a rest))
  have hab : lexLt a b := by
    rw [heq] at hpw
    exact (List.pairwise_cons.mp hpw).1 a (List.mem_cons_self a rest)
  rcases hb with rfl | ⟨hbp, hsb, hbz, hlowb⟩
  · rcases ha with rfl | ⟨_, hsa, _, _⟩
    · exact absurd hab (lexLt_irrefl _)
    · exact absurd (lexLt_trans hsa hab) (lexLt_irrefl _)
  · rcases ha with rfl | ⟨hap, hsa, _, hlowa⟩
    · exact chain_no_pop hnc hni hs hs hbp hz (Or.inl rfl) hab hbz hlowb
    · exact chain_no_pop hnc hni hs hap hbp hz (Or.inr ⟨hsa, hlowa⟩)
        hab hbz hlowb

theorem chainRev_convex {pts : List (Point ℚ)} (hnc : NoColl pts)
    (hni : NoInside pts) :
    ∀ (M : List (Point ℚ)) (s z : Point ℚ),
      (s :: (M ++ [z])).Pairwise lexLt →
      (∀ x ∈ s :: (M ++ [z]), x ∈ pts) →
      chainRev (s :: (M ++ [z])) =
        z :: ((M.filter (fun p => decide (cross s z p < 0))).reverse ++ [s]) := by
  intro M
  induction M using List.reverseRecOn with
  | nil =>
    intro s z _ _
    simp [chainRev, popWhile_nil, popWhile_one]
  | append_singleton M₀ y ih =>
    intro s z hsort hsub
    obtain ⟨hmid, hsz, hMy⟩ := sorted_middle_facts hsort
    have hsy : lexLt s y := (hmid y (by simp)).1
    have hyz : lexLt y z := (hmid y (by simp)).2
    have hmidy : ∀ m ∈ M₀, lexLt m y := by
      intro m hm
      rcases List.pairwise_append.mp hMy with ⟨_, _, hcr⟩
      exact hcr m hm y (by simp)
    have hmids : ∀ m ∈ M₀, lexLt s m := fun m hm => (hmid m (by simp [hm])).1
    have hmidz : ∀ m ∈ M₀, lexLt m z := fun m hm => (hmid m (by simp [hm])).2
    have hsubM : ∀ m ∈ M₀, m ∈ pts := fun m hm => hsub m (by simp [hm])
    have hsp : s ∈ pts := hsub s (by simp)
    have hyp : y ∈ pts := hsub y (by simp)
    have hzp : z ∈ pts := hsub z (by simp)
    have hsort' : (s :: (M₀ ++ [y])).Pairwise lexLt := by
      refine List.Pairwise.sublist ?_ hsort
      exact List.Sublist.cons₂ s (List.sublist_append_left _ _)
    have hsub' : ∀ x ∈ s :: (M₀ ++ [y]), x ∈ pts := by
      intro x hx
      refine hsub x ?_
      simp at hx ⊢
      tauto
    have hIH := ih s y hsort' hsub'
    have hlist : s :: ((M₀ ++ [y]) ++ [z]) = (s :: (M₀ ++ [y])) ++ [z] := by
      simp
    rw [hlist, chainRev_snoc, hIH]
    have hFc : M₀.filter (fun p => decide (cross s y p < 0))
        = M₀.filter (fun p => decide (cross s z p < 0)) := by
      apply List.filter_congr
      intro m hm
      refine decide_eq_decide.mpr ⟨fun h => ?_, fun h => ?_⟩
      · exact stays_low hnc hni hsp hyp hzp (hsubM m hm) (hmids m hm)
          (hmidy m hm) hyz h
      · exact newlow_oldlow hnc hni hsp hyp hzp (hsubM m hm) (hmids m hm)
          (hmidy m hm) hyz h
    have hsubG : (M₀.filter (fun p => decide (cross s z p < 0))).Sublist M₀ :=
      List.filter_sublist M₀
    have hmemG : ∀ x ∈ M₀.filter (fun p => decide (cross s z p < 0)),
        x ∈ M₀ ∧ cross s z x < 0 := by
      intro x hx
      have := List.mem_filter.mp hx
      exact ⟨this.1, of_decide_eq_true this.2⟩
    have hNC_szy : cross s z y ≠ 0 :=
      hnc s hsp z hzp y hyp (lexLt_ne hsz) (lexLt_ne hsy)
        (Ne.symm (lexLt_ne hyz))
    rcases lt_or_gt_of_ne hNC_szy with hylow | hyhi
    · have hfil : (M₀ ++ [y]).filter (fun p => decide (cross s z p < 0))
          = (M₀.filter (fun p => decide (cross s z p < 0))) ++ [y] := by
        rw [List.filter_append]
        simp [hylow]
      have hpwL : (y :: ((M₀.filter
            (fun p => decide (cross s z p < 0))).reverse ++ [s])).Pairwise
            (fun a b => lexLt b a) := by
        have hsubl2 : (s :: ((M₀.filter
              (fun p => decide (cross s z p < 0))) ++ [y])).Sublist
              (s :: (M₀ ++ [y])) :=
          List.Sublist.cons₂ s (List.Sublist.append_right hsubG [y])
        have hpair := List.Pairwise.sublist hsubl2 hsort'
        have hrev := List.pairwise_reverse.mpr hpair
        simpa using hrev
      have hmemL : ∀ x ∈ y :: ((M₀.filter
            (fun p => decide (cross s z p < 0))).reverse ++ [s]),
          x = s ∨ (x ∈ pts ∧ lexLt s x ∧ lexLt x z ∧ cross s z x < 0) := by
        intro x hx
        simp at hx
        rcases hx with rfl | hx | rfl
        · exact Or.inr ⟨hyp, hsy, hyz, hylow⟩
        · obtain ⟨hxM, hxlow⟩ := hmemG x (by
            exact List.mem_filter.mpr ⟨hx.1, decide_eq_true hx.2⟩)
          exact Or.inr ⟨hsubM x hxM, hmids x hxM, hmidz x hxM, hxlow⟩
        · exact Or.inl rfl
      rw [hFc, no_pop_stack hnc hni hsp hzp hmemL hpwL, hfil]
      simp
    · have hfil : (M₀ ++ [y]).filter (fun p => decide (cross s z p < 0))
          = M₀.filter (fun p => decide (cross s z p < 0)) := by
        rw [List.filter_append]
        simp [lt_asymm hyhi]
      rw [hFc]
      obtain ⟨a, rest, hGs⟩ : ∃ a rest,
          (M₀.filter (fun p => decide (cross s z p < 0))).reverse ++ [s]
            = a :: rest := by
        rcases List.exists_cons_of_ne_nil
            (show (M₀.filter (fun p => decide (cross s z p < 0))).reverse ++ [s]
                ≠ [] by simp)
            with ⟨a, rest, h⟩
        exact ⟨a, rest, h⟩
      have hpop : cross a y z ≤ 0 := by
        have haG : a = s ∨ (a ∈ M₀ ∧ cross s z a < 0) := by
          have hmem : a ∈ (M₀.filter
              (fun p => decide (cross s z p < 0))).reverse ++ [s] := by
            rw [hGs]
            exact List.mem_cons_self a rest
          simp at hmem
          rcases hmem with ⟨h1, h2⟩ | rfl
          · exact Or.inr ⟨h1, h2⟩
          · exact Or.inl rfl
        rcases haG with rfl | ⟨haM, hlowa⟩
        · rw [cross_swap a z y]
          linarith
        · exact le_of_lt (pop_boundary hnc hsp (hsubM a haM) hyp hzp
            (hmids a haM) (hmidy a haM) hyz hlowa hyhi)
      rw [hGs, popWhile_cons2, if_pos hpop, ← hGs]
      have hpwL : ((M₀.filter
            (fun p => decide (cross s z p < 0))).reverse ++ [s]).Pairwise
            (fun a b => lexLt b a) := by
        have hsubl2 : (s :: (M₀.filter
              (fun p => decide (cross s z p < 0)))).Sublist
              (s :: (M₀ ++ [y])) :=
          List.Sublist.cons₂ s (hsubG.trans (List.sublist_append_left _ _))
        have hpair := List.Pairwise.sublist hsubl2 hsort'
        have hrev := List.pairwise_reverse.mpr hpair
        simpa using hrev
      have hmemL : ∀ x ∈ (M₀.filter
            (fun p => decide (cross s z p < 0))).reverse ++ [s],
          x = s ∨ (x ∈ pts ∧ lexLt s x ∧ lexLt x z ∧ cross s z x < 0) := by
        intro x hx
        simp at hx
        rcases hx with hx | rfl
        · obtain ⟨hxM, hxlow⟩ := hmemG x (by
            exact List.mem_filter.mpr ⟨hx.1, decide_eq_true hx.2⟩)
          exact Or.inr ⟨hsubM x hxM, hmids x hxM, hmidz x hxM, hxlow⟩
        · exact Or.inl rfl
      rw [no_pop_stack hnc hni hsp hzp hmemL hpwL, hfil]

theorem negP_negP (p : Point ℚ) : negP (negP p) = p := by
  cases p
  simp [negP]

theorem cross_negP (o a b : Point ℚ) :
    cross (negP o) (negP a) (negP b) = cross o a b := by
  simp only [cross, negP]
  ring

theorem lexLt_negP {p q : Point ℚ} : lexLt (negP p) (negP q) ↔ lexLt q p := by
  simp only [lexLt, negP]
  constructor
  · rintro (h | ⟨e, l⟩)
    · exact Or.inl (by linarith)
    · exact Or.inr ⟨by linarith, by linarith⟩
  · rintro (h | ⟨e, l⟩)
    · exact Or.inl (by linarith)
    · exact Or.inr ⟨by linarith, by linarith⟩

theorem popWhile_negP (p : Point ℚ) :
    ∀ (l : List (Point ℚ)),
      popWhile (negP p) (l.map negP) = (popWhile p l).map negP
  | [] => rfl
  | [_] => rfl
  | b :: a :: rest => by
    have hmap : (b :: a :: rest).map negP
        = negP b :: negP a :: rest.map negP := rfl
    rw [hmap, popWhile_cons2, popWhile_cons2, cross_negP]
    by_cases hc : cross a b p ≤ 0
    · rw [if_pos hc, if_pos hc]
      exact popWhile_negP p (a :: rest)
    · rw [if_neg hc, if_neg hc]
      rfl

theorem foldl_chain_negP :
    ∀ (l init : List (Point ℚ)),
      List.foldl (fun chain p => p :: popWhile p chain) (init.map negP)
          (l.map negP)
        = (List.foldl (fun chain p => p :: popWhile p chain) init l).map negP
  | [], _ => rfl
  | p :: t, init => by
    have h1 : (p :: t).map negP = negP p :: t.map negP := rfl
    rw [h1, List.foldl_cons, List.foldl_cons]
    have h2 : negP p :: popWhile (negP p) (init.map negP)
        = (p :: popWhile p init).map negP := by
      rw [popWhile_negP]
      rfl
    rw [h2]
    exact foldl_chain_negP t (p :: popWhile p init)

theorem chainRev_negP (l : List (Point ℚ)) :
    chainRev (l.map negP) = (chainRev l).map negP := by
  have h := foldl_chain_negP l []
  simpa [chainRev] using h

theorem map_negP_involutive (l : List (Point ℚ)) :
    (l.map negP).map negP = l := by
  rw [List.map_map]
  have h : negP ∘ negP = id := by
    funext x
    simp [Function.comp_apply, negP_negP]
  rw [h, List.map_id]

theorem noColl_map_negP {pts : List (Point ℚ)} (h : NoColl pts) :
    NoColl (pts.map negP) := by
  intro a ha b hb c hc hab hac hbc
  rcases List.mem_map.mp ha with ⟨a', ha', rfl⟩
  rcases List.mem_map.mp hb with ⟨b', hb', rfl⟩
  rcases List.mem_map.mp hc with ⟨c', hc', rfl⟩
  rw [cross_negP]
  refine h a' ha' b' hb' c' hc' ?_ ?_ ?_
  · intro he
    exact hab (by rw [he])
  · intro he
    exact hac (by rw [he])
  · intro he
    exact hbc (by rw [he])

theorem noInside_map_negP {pts : List (Point ℚ)} (h : NoInside pts) :
    NoInside (pts.map negP) := by
  intro a ha b hb c hc p hp hin
  rcases List.mem_map.mp ha with ⟨a', ha', rfl⟩
  rcases List.mem_map.mp hb with ⟨b', hb', rfl⟩
  rcases List.mem_map.mp hc with ⟨c', hc', rfl⟩
  rcases List.mem_map.mp hp with ⟨p', hp', rfl⟩
  refine h a' ha' b' hb' c' hc' p' hp' ?_
  simpa [InTri, cross_negP] using hin

theorem buildChain_convex_lower {pts : List (Point ℚ)} (hnc : NoColl pts)
    (hni : NoInside pts) (M : List (Point ℚ)) (s z : Point ℚ)
    (hsort : (s :: (M ++ [z])).Pairwise lexLt)
    (hsub : ∀ x ∈ s :: (M ++ [z]), x ∈ pts) :
    buildChain (s :: (M ++ [z]))
      = s :: ((M.filter (fun p => decide (cross s z p < 0))) ++ [z]) := by
  rw [buildChain_eq_chainRev, chainRev_convex hnc hni M s z hsort hsub]
  simp

theorem buildChain_convex_upper {pts : List (Point ℚ)} (hnc : NoColl pts)
    (hni : NoInside pts) (M : List (Point ℚ)) (s z : Point ℚ)
    (hsort : (s :: (M ++ [z])).Pairwise lexLt)
    (hsub : ∀ x ∈ s :: (M ++ [z]), x ∈ pts) :
    buildChain (z :: (M.reverse ++ [s]))
      = z :: ((M.reverse.filter (fun p => decide (cross z s p < 0))) ++ [s]) := by
  have h1 : (z :: (M.reverse ++ [s])).map negP
      = negP z :: ((M.reverse.map negP) ++ [negP s]) := by
    simp
  have hrevpair : (z :: (M.reverse ++ [s])).Pairwise (fun a b => lexLt b a) := by
    have h := List.pairwise_reverse.mpr hsort
    simpa using h
  have hmappair : ((z :: (M.reverse ++ [s])).map negP).Pairwise lexLt := by
    rw [List.pairwise_map]
    exact hrevpair.imp (fun h => lexLt_negP.mpr h)
  have hmapsub : ∀ x ∈ (z :: (M.reverse ++ [s])).map negP,
      x ∈ pts.map negP := by
    intro x hx
    rcases List.mem_map.mp hx with ⟨x', hx', rfl⟩
    refine List.mem_map.mpr ⟨x', ?_, rfl⟩
    refine hsub x' ?_
    simp at hx' ⊢
    tauto
  have hkey := chainRev_convex (noColl_map_negP hnc) (noInside_map_negP hni)
    (M.reverse.map negP) (negP z) (negP s)
    (by rw [← h1]; exact hmappair) (by rw [← h1]; exact hmapsub)
  have hfm : (M.reverse.map negP).filter
        (fun p => decide (cross (negP z) (negP s) p < 0))
      = (M.reverse.filter (fun p => decide (cross z s p < 0))).map negP := by
    rw [List.filter_map]
    congr 1
    apply List.filter_congr
    intro m _
    show decide (cross (negP z) (negP s) (negP m) < 0)
      = decide (cross z s m < 0)
    rw [cross_negP]
  rw [← h1, chainRev_negP, hfm] at hkey
  have h4 : negP s :: (((M.reverse.filter
        (fun p => decide (cross z s p < 0))).map negP).reverse ++ [negP z])
      = (s :: ((M.reverse.filter
          (fun p => decide (cross z s p < 0))).reverse ++ [z])).map negP := by
    simp [List.map_reverse]
  rw [h4] at hkey
  have h5 := congrArg (List.map negP) hkey
  rw [map_negP_involutive, map_negP_involutive] at h5
  rw [buildChain_eq_chainRev, h5]
  simp

theorem junction_at_far {pts : List (Point ℚ)} (hnc : NoColl pts)
    {s n w x : Point ℚ}
    (hsp : s ∈ pts) (hnp : n ∈ pts) (hwp : w ∈ pts) (hxp : x ∈ pts)
    (hsw : lexLt s w) (hwn : lexLt w n) (hsx : lexLt s x) (hxn : lexLt x n)
    (hloww : cross s n w < 0) (hhix : 0 < cross s n x) :
    0 < cross w n x := by
  have hsn := lexLt_trans hsw hwn
  have hslng : s.lng < n.lng := by
    rcases lt_or_eq_of_le (lexLt_lng_le hsn) with h | h
    · exact h
    · exfalso
      have hws := lexLt_lng_le hsw
      have hwn' := lexLt_lng_le hwn
      have hcol : cross s n w = 0 := by
        unfold cross
        have e1 : n.lng = s.lng := h.symm
        have e2 : w.lng = s.lng := by linarith
        rw [e1, e2]
        ring
      exact (ne_of_lt hloww) hcol
  have key : cross n w x * (n.lng - s.lng)
      = (w.lng - n.lng) * cross s n x + (n.lng - x.lng) * cross s n w := by
    unfold cross
    ring
  have hwlng : w.lng ≤ n.lng := lexLt_lng_le hwn
  have hxlng : x.lng ≤ n.lng := lexLt_lng_le hxn
  have t1 : (w.lng - n.lng) * cross s n x ≤ 0 :=
    mul_nonpos_iff.mpr (Or.inr ⟨by linarith, le_of_lt hhix⟩)
  have t2 : (n.lng - x.lng) * cross s n w ≤ 0 :=
    mul_nonpos_iff.mpr (Or.inl ⟨by linarith, le_of_lt hloww⟩)
  have hwx : w ≠ x := by
    intro he
    rw [he] at hloww
    linarith
  have hstrict : (w.lng - n.lng) * cross s n x < 0 ∨
      (n.lng - x.lng) * cross s n w < 0 := by
    rcases lt_or_eq_of_le hwlng with hw | hw
    · exact Or.inl (mul_neg_of_neg_of_pos (by linarith) hhix)
    · rcases lt_or_eq_of_le hxlng with hx | hx
      · exact Or.inr (mul_neg_of_pos_of_neg (by linarith) hloww)
      · exfalso
        have hcol : cross w n x = 0 := by
          unfold cross
          have e1 : n.lng = w.lng := hw.symm
          have e2 : x.lng = w.lng := by linarith
          rw [e1, e2]
          ring
        exact hnc w hwp n hnp x hxp (lexLt_ne hwn) hwx
          (Ne.symm (lexLt_ne hxn)) hcol
  have hlhs : cross n w x * (n.lng - s.lng) < 0 := by
    rcases hstrict with h | h <;> linarith
  have hnwx : cross n w x < 0 := by
    by_contra hcon
    push_neg at hcon
    have : 0 ≤ cross n w x * (n.lng - s.lng) :=
      mul_nonneg hcon (by linarith)
    linarith
  rw [cross_swap01 n w x]
  linarith

theorem junction_at_near {pts : List (Point ℚ)} (hnc : NoColl pts)
    {s n w x : Point ℚ}
    (hsp : s ∈ pts) (hnp : n ∈ pts) (hwp : w ∈ pts) (hxp : x ∈ pts)
    (hsw : lexLt s w) (hwn : lexLt w n) (hsx : lexLt s x) (hxn : lexLt x n)
    (hloww : cross s n w < 0) (hhix : 0 < cross s n x) :
    0 < cross s w x := by
  have hsn := lexLt_trans hsw hwn
  have hslng : s.lng < n.lng := by
    rcases lt_or_eq_of_le (lexLt_lng_le hsn) with h | h
    · exact h
    · exfalso
      have hws := lexLt_lng_le hsw
      have hwn' := lexLt_lng_le hwn
      have hcol : cross s n w = 0 := by
        unfold cross
        have e1 : n.lng = s.lng := h.symm
        have e2 : w.lng = s.lng := by linarith
        rw [e1, e2]
        ring
      exact (ne_of_lt hloww) hcol
  have key : cross s w x * (n.lng - s.lng)
      = (w.lng - s.lng) * cross s n x - (x.lng - s.lng) * cross s n w := by
    unfold cross
    ring
  have hwlng : s.lng ≤ w.lng := lexLt_lng_le hsw
  have hxlng : s.lng ≤ x.lng := lexLt_lng_le hsx
  have t1 : 0 ≤ (w.lng - s.lng) * cross s n x :=
    mul_nonneg (by linarith) (le_of_lt hhix)
  have t2 : (x.lng - s.lng) * cross s n w ≤ 0 :=
    mul_nonpos_iff.mpr (Or.inl ⟨by linarith, le_of_lt hloww⟩)
  have hwx : w ≠ x := by
    intro he
    rw [he] at hloww
    linarith
  have hstrict : 0 < (w.lng - s.lng) * cross s n x ∨
      (x.lng - s.lng) * cross s n w < 0 := by
    rcases lt_or_eq_of_le hwlng with hw | hw
    · exact Or.inl (mul_pos (by linarith) hhix)
    · rcases lt_or_eq_of_le hxlng with hx | hx
      · exact Or.inr (mul_neg_of_pos_of_neg (by linarith) hloww)
      · exfalso
        have hcol : cross s w x = 0 := by
          unfold cross
          have e1 : w.lng = s.lng := hw.symm
          have e2 : x.lng = s.lng := hx.symm
          rw [e1, e2]
          ring
        exact hnc s hsp w hwp x hxp (lexLt_ne hsw) (lexLt_ne hsx) hwx hcol
  have hlhs : 0 < cross s w x * (n.lng - s.lng) := by
    rcases hstrict with h | h <;> linarith
  by_contra hcon
  push_neg at hcon
  have : cross s w x * (n.lng - s.lng) ≤ 0 :=
    mul_nonpos_iff.mpr (Or.inr ⟨hcon, by linarith⟩)
  linarith

theorem ccw_cyclic_glue {u v hd e : Point ℚ} {xs ys xs' ys' : List (Point ℚ)}
    (hhd : xs ++ [v] = hd :: xs')
    (he : ys ++ [u] = e :: ys')
    (hX : CCWChain ((v :: ys) ++ [u, hd]))
    (hY : CCWChain ((u :: xs) ++ [v, e])) :
    CCWCyclic ((u :: xs) ++ (v :: ys)) := by
  unfold CCWCyclic
  have htake : ((u :: xs) ++ (v :: ys)).take 2 = [u, hd] := by
    cases xs with
    | nil =>
      obtain ⟨rfl, rfl⟩ : v = hd ∧ [] = xs' := by simpa using hhd
      rfl
    | cons x xs₀ =>
      obtain ⟨rfl, rfl⟩ : x = hd ∧ xs₀ ++ [v] = xs' := by simpa using hhd
      rfl
  rw [htake]
  have hassoc : ((u :: xs) ++ (v :: ys)) ++ [u, hd]
      = (u :: xs) ++ (v :: (ys ++ [u, hd])) := by
    simp
  rw [hassoc]
  have hys2 : ys ++ [u, hd] = e :: (ys' ++ [hd]) := by
    have h1 : ys ++ [u, hd] = (ys ++ [u]) ++ [hd] := by simp
    rw [h1, he]
    rfl
  have hX' : CCWChain (v :: (e :: (ys' ++ [hd]))) := by
    have h2 : (v :: ys) ++ [u, hd] = v :: (ys ++ [u, hd]) := rfl
    rw [h2, hys2] at hX
    exact hX
  have hres := ccw_glue hX' (u :: xs) hY
  rw [hys2]
  exact hres

theorem convexHull_convex_decomp {pts : List (Point ℚ)} (hnc : NoColl pts)
    (hni : NoInside pts) {s₀ sN : Point ℚ} {M : List (Point ℚ)}
    (hS : pts.mergeSort lexLe = s₀ :: (M ++ [sN]))
    (hsort : (s₀ :: (M ++ [sN])).Pairwise lexLt)
    (hsub : ∀ x ∈ s₀ :: (M ++ [sN]), x ∈ pts)
    (hlen : ¬ pts.length ≤ 1) :
    convexHull pts
      = (s₀ :: M.filter (fun p => decide (cross s₀ sN p < 0)))
        ++ (sN :: M.reverse.filter (fun p => decide (cross sN s₀ p < 0))) := by
  rw [convexHull_of_big hlen, hS]
  have hrev : (s₀ :: (M ++ [sN])).reverse = sN :: (M.reverse ++ [s₀]) := by
    simp
  rw [hrev, buildChain_convex_lower hnc hni M s₀ sN hsort hsub,
    buildChain_convex_upper hnc hni M s₀ sN hsort hsub]
  have hd1 : (s₀ :: ((M.filter (fun p => decide (cross s₀ sN p < 0)))
        ++ [sN])).dropLast
      = s₀ :: (M.filter (fun p => decide (cross s₀ sN p < 0))) := by
    rw [show s₀ :: ((M.filter (fun p => decide (cross s₀ sN p < 0))) ++ [sN])
        = (s₀ :: (M.filter (fun p => decide (cross s₀ sN p < 0)))) ++ [sN]
      from rfl]
    exact List.dropLast_concat
  have hd2 : (sN :: ((M.reverse.filter (fun p => decide (cross sN s₀ p < 0)))
        ++ [s₀])).dropLast
      = sN :: (M.reverse.filter (fun p => decide (cross sN s₀ p < 0))) := by
    rw [show sN :: ((M.reverse.filter (fun p => decide (cross sN s₀ p < 0)))
          ++ [s₀])
        = (sN :: (M.reverse.filter (fun p => decide (cross sN s₀ p < 0))))
          ++ [s₀]
      from rfl]
    exact List.dropLast_concat
  rw [hd1, hd2]

/-- **C1.**  For every finite list of points in convex position (pairwise
distinct, no three collinear, none strictly inside a triangle of the
others) with at least three points, `convexHull` returns exactly the input
points — a permutation of the input, hence each point exactly once and no
interior points — and every three cyclically consecutive hull vertices
make a strict counterclockwise turn: a single consistent rotational
sense. -/
theorem c1_hull_convex_position (pts : List (Point ℚ))
    (hcp : ConvexPos pts) (hlen : 3 ≤ pts.length) :
    (convexHull pts).Perm pts ∧ CCWCyclic (convexHull pts) := by
  obtain ⟨hnd, hnc, hni⟩ := hcp
  have hperm : (pts.mergeSort lexLe).Perm pts := List.mergeSort_perm pts lexLe
  have hSnd : (pts.mergeSort lexLe).Nodup := hperm.nodup_iff.mpr hnd
  have hSle := List.sorted_mergeSort lexLe_trans_bool lexLe_total_bool pts
  have hSlt : (pts.mergeSort lexLe).Pairwise lexLt := by
    have hand := List.Pairwise.and hSle hSnd
    exact hand.imp (fun h => lexLt_of_lexLe_ne h.1 h.2)
  have hSlen : 3 ≤ (pts.mergeSort lexLe).length := by
    rw [hperm.length_eq]
    exact hlen
  obtain ⟨s₀, M, sN, hS⟩ : ∃ s₀ M sN,
      pts.mergeSort lexLe = s₀ :: (M ++ [sN]) := by
    have hne : pts.mergeSort lexLe ≠ [] := by
      intro h
      rw [h] at hSlen
      simp at hSlen
    obtain ⟨a, t, hat⟩ := List.exists_cons_of_ne_nil hne
    have htne : t ≠ [] := by
      intro h
      rw [hat, h] at hSlen
      simp at hSlen
    refine ⟨a, t.dropLast, t.getLast htne, ?_⟩
    rw [hat, List.dropLast_append_getLast htne]
  have hsort : (s₀ :: (M ++ [sN])).Pairwise lexLt := by
    rw [← hS]
    exact hSlt
  have hsub : ∀ x ∈ s₀ :: (M ++ [sN]), x ∈ pts := by
    intro x hx
    refine hperm.subset ?_
    rw [hS]
    exact hx
  have hlen1 : ¬ pts.length ≤ 1 := by omega
  have hhull := convexHull_convex_decomp hnc hni hS hsort hsub hlen1
  obtain ⟨hmid, hs0N, hMpw⟩ := sorted_middle_facts hsort
  have hs0p : s₀ ∈ pts := hsub s₀ (by simp)
  have hsNp : sN ∈ pts := hsub sN (by simp)
  have hmidp : ∀ m ∈ M, m ∈ pts := fun m hm => hsub m (by simp [hm])
  have hmid0 : ∀ m ∈ M, cross s₀ sN m ≠ 0 := by
    intro m hm
    exact hnc s₀ hs0p sN hsNp m (hmidp m hm) (lexLt_ne hs0N)
      (lexLt_ne (hmid m hm).1) (Ne.symm (lexLt_ne (hmid m hm).2))
  have hmemA : ∀ a ∈ M.filter (fun p => decide (cross s₀ sN p < 0)),
      a ∈ M ∧ cross s₀ sN a < 0 := by
    intro a ha
    have h := List.mem_filter.mp ha
    exact ⟨h.1, of_decide_eq_true h.2⟩
  have hmemB : ∀ b ∈ M.reverse.filter (fun p => decide (cross sN s₀ p < 0)),
      b ∈ M ∧ 0 < cross s₀ sN b := by
    intro b hb
    have h1 := List.mem_filter.mp hb
    have h2 : cross sN s₀ b < 0 := of_decide_eq_true h1.2
    refine ⟨List.mem_reverse.mp h1.1, ?_⟩
    have h3 := cross_swap01 s₀ sN b
    linarith
  have hfc : M.filter (fun p => decide (cross sN s₀ p < 0))
      = M.filter (fun p => !(decide (cross s₀ sN p < 0))) := by
    apply List.filter_congr
    intro m hm
    have hswap : cross sN s₀ m = - cross s₀ sN m := cross_swap01 s₀ sN m
    rcases lt_trichotomy (cross s₀ sN m) 0 with h | h | h
    · rw [hswap]
      simp [h, lt_asymm h, neg_lt_zero]
    · exact absurd h (hmid0 m hm)
    · rw [hswap]
      simp [h, lt_asymm h, neg_lt_zero]
  have hABperm : List.Perm
      ((M.filter (fun p => decide (cross s₀ sN p < 0)))
        ++ (M.reverse.filter (fun p => decide (cross sN s₀ p < 0)))) M := by
    have pB : List.Perm
        (M.reverse.filter (fun p => decide (cross sN s₀ p < 0)))
        (M.filter (fun p => decide (cross sN s₀ p < 0))) :=
      (List.reverse_perm M).filter _
    refine (List.Perm.append_left _ pB).trans ?_
    rw [hfc]
    exact List.filter_append_perm _ M
  have hlc : CCWChain (s₀ :: ((M.filter (fun p => decide
      (cross s₀ sN p < 0))) ++ [sN])) := by
    have h := ccwChain_buildChain (s₀ :: (M ++ [sN]))
    rw [buildChain_convex_lower hnc hni M s₀ sN hsort hsub] at h
    exact h
  have huc : CCWChain (sN :: ((M.reverse.filter (fun p => decide
      (cross sN s₀ p < 0))) ++ [s₀])) := by
    have h := ccwChain_buildChain (sN :: (M.reverse ++ [s₀]))
    rw [buildChain_convex_upper hnc hni M s₀ sN hsort hsub] at h
    exact h
  obtain ⟨Af, hAfd⟩ : ∃ l, M.filter (fun p => decide (cross s₀ sN p < 0)) = l :=
    ⟨_, rfl⟩
  obtain ⟨Bf, hBfd⟩ : ∃ l,
      M.reverse.filter (fun p => decide (cross sN s₀ p < 0)) = l := ⟨_, rfl⟩
  rw [hAfd] at hhull hmemA hABperm hlc
  rw [hBfd] at hhull hmemB hABperm huc
  have hpermS : (s₀ :: (M ++ [sN])).Perm pts := by
    rw [← hS]
    exact hperm
  have hPermHull : (convexHull pts).Perm pts := by
    rw [hhull]
    have e1 : (s₀ :: Af) ++ (sN :: Bf) = s₀ :: (Af ++ (sN :: Bf)) := rfl
    rw [e1]
    refine List.Perm.trans (List.Perm.cons s₀ ?_) hpermS
    have c1p : List.Perm (Af ++ sN :: Bf) (sN :: (Af ++ Bf)) :=
      List.perm_middle
    have c2p : List.Perm (sN :: (Af ++ Bf)) (sN :: M) :=
      List.Perm.cons sN hABperm
    have c3p : List.Perm (M ++ [sN]) (sN :: M) := by
      have h : List.Perm (M ++ [sN]) (sN :: (M ++ [])) := List.perm_middle
      simpa using h
    exact (c1p.trans c2p).trans c3p.symm
  have hMne : M ≠ [] := by
    intro h
    rw [hS, h] at hSlen
    simp at hSlen
  have hABne : Af ≠ [] ∨ Bf ≠ [] := by
    by_contra hcon
    push_neg at hcon
    rw [hcon.1, hcon.2] at hABperm
    have hM0 : List.Perm M ([] : List (Point ℚ)) := by
      simpa using hABperm.symm
    exact hMne hM0.eq_nil
  obtain ⟨hd, xs', hhd⟩ : ∃ hd xs', Af ++ [sN] = hd :: xs' :=
    List.exists_cons_of_ne_nil (by simp)
  obtain ⟨e, ys', he⟩ : ∃ e ys', Bf ++ [s₀] = e :: ys' :=
    List.exists_cons_of_ne_nil (by simp)
  have hefact : (Bf = [] ∧ e = s₀) ∨ (e ∈ M ∧ 0 < cross s₀ sN e) := by
    cases hBf : Bf with
    | nil =>
      rw [hBf] at he
      simp at he
      exact Or.inl ⟨rfl, he.1.symm⟩
    | cons b t =>
      rw [hBf] at he
      simp at he
      have hbB : b ∈ Bf := by
        rw [hBf]
        simp
      obtain ⟨hbM, hbhi⟩ := hmemB b hbB
      rw [← he.1]
      exact Or.inr ⟨hbM, hbhi⟩
  have hhdfact : (Af = [] ∧ hd = sN) ∨ (hd ∈ M ∧ cross s₀ sN hd < 0) := by
    cases hAf : Af with
    | nil =>
      rw [hAf] at hhd
      simp at hhd
      exact Or.inl ⟨rfl, hhd.1.symm⟩
    | cons a t =>
      rw [hAf] at hhd
      simp at hhd
      have haA : a ∈ Af := by
        rw [hAf]
        simp
      obtain ⟨haM, halow⟩ := hmemA a haA
      rw [← hhd.1]
      exact Or.inr ⟨haM, halow⟩
  have hY : CCWChain ((s₀ :: Af) ++ [sN, e]) := by
    rcases List.eq_nil_or_concat Af with hAf | ⟨A₀, w, hAfc⟩
    · rcases hefact with ⟨hBf, heqe⟩ | ⟨heM, hehi⟩
      · exact absurd hAf (hABne.resolve_right (fun hne => hne hBf))
      · rw [hAf]
        exact CCWChain.cons s₀ sN e [] hehi (CCWChain.pair sN e)
    · have hAf : Af = A₀ ++ [w] := by
        rw [hAfc, List.concat_eq_append]
      have hwA : w ∈ Af := by
        rw [hAf]
        simp
      obtain ⟨hwM, hwlow⟩ := hmemA w hwA
      have hJ : 0 < cross w sN e := by
        rcases hefact with ⟨hBf, heqe⟩ | ⟨heM, hehi⟩
        · rw [heqe, cross_cyc s₀ w sN, cross_swap s₀ sN w]
          linarith
        · exact junction_at_far hnc hs0p hsNp (hmidp w hwM) (hmidp e heM)
            (hmid w hwM).1 (hmid w hwM).2 (hmid e heM).1 (hmid e heM).2
            hwlow hehi
      have hlc' : CCWChain ((s₀ :: A₀) ++ [w, sN]) := by
        have h := hlc
        rw [hAf] at h
        have heq : s₀ :: ((A₀ ++ [w]) ++ [sN]) = (s₀ :: A₀) ++ [w, sN] := by
          simp
        rw [heq] at h
        exact h
      have hres := ccw_snoc hlc' hJ
      have heq2 : (s₀ :: A₀) ++ [w, sN, e] = (s₀ :: (A₀ ++ [w])) ++ [sN, e] := by
        simp
      rw [heq2] at hres
      rw [hAf]
      exact hres
  have hX : CCWChain ((sN :: Bf) ++ [s₀, hd]) := by
    rcases List.eq_nil_or_concat Bf with hBf | ⟨B₀, q, hBfc⟩
    · rcases hhdfact with ⟨hAf2, heqd⟩ | ⟨hdM, hdlow⟩
      · exact absurd hBf (hABne.resolve_left (fun hne => hne hAf2))
      · rw [hBf]
        refine CCWChain.cons sN s₀ hd [] ?_ (CCWChain.pair s₀ hd)
        rw [cross_cyc hd sN s₀, cross_cyc s₀ hd sN, cross_swap s₀ sN hd]
        linarith
    · have hBf : Bf = B₀ ++ [q] := by
        rw [hBfc, List.concat_eq_append]
      have hqB : q ∈ Bf := by
        rw [hBf]
        simp
      obtain ⟨hqM, hqhi⟩ := hmemB q hqB
      have hJ : 0 < cross q s₀ hd := by
        rcases hhdfact with ⟨hAf2, heqd⟩ | ⟨hdM, hdlow⟩
        · rw [heqd, cross_cyc sN q s₀, cross_cyc s₀ sN q]
          exact hqhi
        · have hjn := junction_at_near hnc hs0p hsNp (hmidp hd hdM)
            (hmidp q hqM) (hmid hd hdM).1 (hmid hd hdM).2
            (hmid q hqM).1 (hmid q hqM).2 hdlow hqhi
          rw [cross_cyc hd q s₀, cross_cyc s₀ hd q]
          exact hjn
      have huc' : CCWChain ((sN :: B₀) ++ [q, s₀]) := by
        have h := huc
        rw [hBf] at h
        have heq : sN :: ((B₀ ++ [q]) ++ [s₀]) = (sN :: B₀) ++ [q, s₀] := by
          simp
        rw [heq] at h
        exact h
      have hres := ccw_snoc huc' hJ
      have heq2 : (sN :: B₀) ++ [q, s₀, hd] = (sN :: (B₀ ++ [q])) ++ [s₀, hd] := by
        simp
      rw [heq2] at hres
      rw [hBf]
      exact hres
  refine ⟨hPermHull, ?_⟩
  rw [hhull]
  exact ccw_cyclic_glue hhd he hX hY

theorem c1_hull_convex_position_witness :
    ConvexPos [(⟨0, 0⟩ : Point ℚ), ⟨1, 0⟩, ⟨0, 1⟩] ∧
      3 ≤ ([(⟨0, 0⟩ : Point ℚ), ⟨1, 0⟩, ⟨0, 1⟩] : List (Point ℚ)).length ∧
      ((convexHull [(⟨0, 0⟩ : Point ℚ), ⟨1, 0⟩, ⟨0, 1⟩]).Perm
          [(⟨0, 0⟩ : Point ℚ), ⟨1, 0⟩, ⟨0, 1⟩] ∧
        CCWCyclic (convexHull [(⟨0, 0⟩ : Point ℚ), ⟨1, 0⟩, ⟨0, 1⟩])) := by
  have hcp : ConvexPos [(⟨0, 0⟩ : Point ℚ), ⟨1, 0⟩, ⟨0, 1⟩] := by
    refine ⟨by decide, ?_, ?_⟩
    · intro a ha b hb c hc hab hac hbc
      fin_cases ha <;> fin_cases hb <;> fin_cases hc <;>
        first
          | exact absurd rfl hab
          | exact absurd rfl hac
          | exact absurd rfl hbc
          | norm_num [cross]
    · intro a ha b hb c hc p hp
      fin_cases ha <;> fin_cases hb <;> fin_cases hc <;> fin_cases hp <;>
        norm_num [InTri, cross]
  exact ⟨hcp, by norm_num,
    c1_hull_convex_position [(⟨0, 0⟩ : Point ℚ), ⟨1, 0⟩, ⟨0, 1⟩] hcp
      (by norm_num)⟩

end F3Map
